import Mathlib

/-!
Verification of the CommentTree repository core: a shallow embedding of the
comment store (`internal/infrastructure/database/postgres.go`) and the use-case
layer (`internal/usecase/comment.go`), with theorems settling the spec claims.

Modelling conventions:
* A `Comment` mirrors `domain.Comment` (id, nullable parent id, content, two
  timestamps).  Go `time.Time` values are modelled as integers ordered by `<`
  (`Before` is `<`, `After` is `>`).
* The database table is modelled as a `List Comment`: the list order stands for
  the row iteration order of an unordered `SELECT`, which PostgreSQL leaves
  unspecified.  Two permutations of the same list model the same table contents
  observed through two different row orders (or two Go map iteration orders).
* Recursive SQL CTEs are modelled by fuelled recursion; a fuel of
  `store.length` (one unit per record) is always sufficient for the acyclic,
  chain-terminating stores the schema guarantees, which the fuel-sufficiency
  lemmas below make precise.
* Fallible Go functions returning `(T, error)` are modelled with `Except`;
  `fmt.Errorf("...: %w", err)` wrapping is the `DomainError.wrapped`
  constructor.
-/

/-- Mirrors `domain.Comment` (src/unnamed/part_001): id, optional parent id,
content, creation and update timestamps. -/
structure Comment where
  id : Int
  parentID : Option Int
  content : String
  createdAt : Int
  updatedAt : Int
deriving DecidableEq, Repr

/-- Mirrors `domain.CommentTree`: a comment together with its child trees. -/
inductive CommentTree where
  | node (comment : Comment) (children : List CommentTree)
deriving Repr

/-- Mirrors `domain.CommentFilter` (src/unnamed/part_001). -/
structure CommentFilter where
  parentID : Option Int
  search : String
  page : Int
  pageSize : Int
  sortBy : String
  order : String
deriving DecidableEq, Repr

/-- Mirrors the domain sentinel errors (`internal/.../errors.go`) together with
`fmt.Errorf` `%w`-wrapping as used by the use-case layer.  The HTTP handler
compares errors with `==`, so a wrapped error is distinct from its sentinel. -/
inductive DomainError where
  | commentNotFound
  | invalidParent
  | emptyContent
  | wrapped (context : String) (inner : DomainError)
deriving DecidableEq, Repr

/-- The `"created_at"` sort-key string of the source. -/
def createdAtKey : String := "created_at"

/-- The `"updated_at"` sort-key string of the source. -/
def updatedAtKey : String := "updated_at"

/-- The `"asc"` direction string of the source. -/
def ascKey : String := "asc"

/-- The `"desc"` direction string of the source. -/
def descKey : String := "desc"

/-- The empty string, used by the source for unset filter fields. -/
def emptyStr : String := ""

/-- Wrap context of `usecase.Create`: "failed to get parent comment". -/
def msgGetParent : String := "failed to get parent comment"

/-- Wrap context of `usecase.Delete`: "failed to get comment". -/
def msgGetComment : String := "failed to get comment"

/-- The root of a tree node. -/
def CommentTree.root : CommentTree → Comment
  | .node c _ => c

/-- The children list of a tree node. -/
def CommentTree.childList : CommentTree → List CommentTree
  | .node _ cs => cs

/-- Mirrors `PostgresRepository.GetByID` (postgres.go:53-87): the row with the
given id, `ErrCommentNotFound` when no row matches (`pgx.ErrNoRows`).  The Go
function never returns a nil comment together with a nil error, which the
`Option` inside the success case records. -/
def repoGetByID (store : List Comment) (i : Int) : Except DomainError (Option Comment) :=
  match store.find? (fun c => c.id = i) with
  | none => .error .commentNotFound
  | some c => .ok (some c)

/-- Mirrors `PostgresRepository.Create` (postgres.go:25-50): inserts a new row
whose id is server-assigned and whose two timestamps are both set to now. -/
def repoCreate (store : List Comment) (newID now : Int) (parentID : Option Int)
    (content : String) : List Comment × Comment :=
  let c : Comment := ⟨newID, parentID, content, now, now⟩
  (store ++ [c], c)

/-- Mirrors `CommentUseCase.Create` (usecase/comment.go:21-46).  Returns the
store after the call together with the result; on error the store is returned
unchanged because the use case returns before `repo.Create` runs.  The
`parent == nil` branch of the Go code (which would return `ErrInvalidParent`)
corresponds to the `.ok none` case of `repoGetByID`, which the repository
implementation never produces. -/
def ucCreate (store : List Comment) (parentID : Option Int) (content : String)
    (now newID : Int) : List Comment × Except DomainError Comment :=
  if content = emptyStr then (store, .error .emptyContent)
  else
    match parentID with
    | some pid =>
      match repoGetByID store pid with
      | .error e => (store, .error (.wrapped msgGetParent e))
      | .ok none => (store, .error .invalidParent)
      | .ok (some _) =>
        let r := repoCreate store newID now parentID content
        (r.1, .ok r.2)
    | none =>
      let r := repoCreate store newID now parentID content
      (r.1, .ok r.2)

/-- One step up the parent chain: the row whose id is the comment's parent id
(the join `c.id = cp.parent_id` of the recursive CTEs), `none` for a root or a
dangling parent reference. -/
def stepUp (store : List Comment) (c : Comment) : Option Comment :=
  match c.parentID with
  | none => none
  | some pid => store.find? (fun x => x.id = pid)

/-- `k` steps up the parent chain. -/
def iterUp (store : List Comment) : Nat → Comment → Option Comment
  | 0, c => some c
  | k + 1, c => (stepUp store c).bind (iterUp store k)

/-- Fuelled walk up the parent chain returning the number of steps taken and
the parentless record reached, `none` when the fuel runs out (a cycle) or a
parent reference dangles.  This is the semantics of the upward recursive CTE of
`findRootComment` (postgres.go:438-462). -/
def rootDist (store : List Comment) : Nat → Comment → Option (Nat × Comment)
  | 0, _ => none
  | fuel + 1, c =>
    match c.parentID with
    | none => some (0, c)
    | some pid =>
      match store.find? (fun x => x.id = pid) with
      | none => none
      | some p => (rootDist store fuel p).map (fun kr => (kr.1 + 1, kr.2))

/-- Mirrors `PostgresRepository.findRootComment` (postgres.go:438-462): walk up
from the record with the given id to the topmost ancestor and return its id;
when the id is absent or the walk yields no parentless row, return the input id
(the Go error fallback). -/
def findRootComment (store : List Comment) (cid : Int) : Int :=
  match store.find? (fun c => c.id = cid) with
  | none => cid
  | some c =>
    match rootDist store store.length c with
    | none => cid
    | some kr => kr.2.id

/-- Case-insensitive character list of a string (PostgreSQL `ILIKE` folding,
restricted to the simple one-char case folding of `Char.toLower`). -/
def lowerChars (s : String) : List Char := s.data.map Char.toLower

/-- Containment of `needle` as a contiguous sublist of `hay`. -/
def hasSublist (hay needle : List Char) : Bool :=
  if needle.isPrefixOf hay then true
  else
    match hay with
    | [] => false
    | _ :: t => hasSublist t needle

/-- Mirrors the `content ILIKE '%' || q || '%'` predicate of `Search` and
`Count` (postgres.go:288-295, 534-540): case-insensitive substring match. -/
def matchesPattern (q : String) (c : Comment) : Bool :=
  hasSublist (lowerChars c.content) (lowerChars q)

/-- The inner pass of the exchange sort of postgres.go (`for j := i+1; ...`):
given the current value at position `i` and the suffix, compare-and-swap the
position-`i` value against each suffix element in turn; returns the final value
at position `i` and the suffix after the displaced swaps.  `cmp a b = true`
means the Go code swaps `a` and `b`. -/
def selPass (cmp : Comment → Comment → Bool) : Comment → List Comment → Comment × List Comment
  | a, [] => (a, [])
  | a, b :: rest =>
    if cmp a b then
      let r := selPass cmp b rest
      (r.1, a :: r.2)
    else
      let r := selPass cmp a rest
      (r.1, b :: r.2)

theorem selPass_snd_length (cmp : Comment → Comment → Bool) (a : Comment) (l : List Comment) :
    (selPass cmp a l).2.length = l.length := by
  induction l generalizing a with
  | nil => rfl
  | cons b rest ih =>
    simp only [selPass]
    by_cases h : cmp a b = true
    · simp [h, ih]
    · simp [h, ih]

/-- Fuelled outer loop of the exchange sort; the fuel counts the remaining
outer iterations and each recursive call works on a list one element shorter,
so a fuel equal to the list length runs the loop to completion. -/
def exchangeSortFuel (cmp : Comment → Comment → Bool) : Nat → List Comment → List Comment
  | 0, l => l
  | _ + 1, [] => []
  | fuel + 1, a :: rest =>
    let r := selPass cmp a rest
    r.1 :: exchangeSortFuel cmp fuel r.2

/-- The double loop `for i ...; for j := i+1 ...` of the sorting blocks of
`GetTree` (postgres.go:174-211) and `Search` (postgres.go:378-414). -/
def exchangeSort (cmp : Comment → Comment → Bool) (l : List Comment) : List Comment :=
  exchangeSortFuel cmp l.length l

/-- The root-sorting block keyed on the filter fields, as written in
`GetTree` (postgres.go:175-211): sort only when the key is `created_at` or
`updated_at`; within a key, the `desc` branch swaps on `Before` and every
other direction value takes the `asc` branch swapping on `After`. -/
def sortRoots (sortBy order : String) (roots : List Comment) : List Comment :=
  if sortBy = createdAtKey then
    if order = descKey then
      exchangeSort (fun a b => a.createdAt < b.createdAt) roots
    else
      exchangeSort (fun a b => b.createdAt < a.createdAt) roots
  else if sortBy = updatedAtKey then
    if order = descKey then
      exchangeSort (fun a b => a.updatedAt < b.updatedAt) roots
    else
      exchangeSort (fun a b => b.updatedAt < a.updatedAt) roots
  else roots

/-- Sort-key normalization done at the top of `GetTree` and `Search`
(postgres.go:94-97, 279-282). -/
def normSortKey (sortBy : String) : String :=
  if sortBy ≠ createdAtKey ∧ sortBy ≠ updatedAtKey then createdAtKey else sortBy

/-- Direction normalization done at the top of `GetTree` and `Search`
(postgres.go:98-101, 283-286). -/
def normOrderKey (order : String) : String :=
  if order ≠ ascKey ∧ order ≠ descKey then descKey else order

/-- The pagination step of `GetTree` and `Search` (postgres.go:213-222,
416-425): `start = (page-1)*pageSize`, `end = start+pageSize`; empty page when
`start ≥ len`, tail slice when `end > len`, otherwise the `[start, end)`
slice. -/
def paginate (page pageSize : Int) (l : List Comment) : List Comment :=
  let start := (page - 1) * pageSize
  let stop := start + pageSize
  if start ≥ (l.length : Int) then []
  else if stop > (l.length : Int) then l.drop start.toNat
  else (l.drop start.toNat).take pageSize.toNat

/-- Mirrors `PostgresRepository.buildTree` (postgres.go:235-249): wrap the
comment and recursively build a child tree for every record of the flat set
whose parent id equals this record's id.  The Go recursion has no fuel and
diverges on cyclic data; here a fuel of `store.length` is always sufficient for
chain-terminating stores (see the fuel lemmas below), and the callers pass
exactly that. -/
def buildTree (store : List Comment) : Nat → Comment → CommentTree
  | 0, c => .node c []
  | fuel + 1, c =>
    .node c ((store.filter (fun x => x.parentID = some c.id)).map
      (fun x => buildTree store fuel x))

mutual

/-- All comments of a tree, root first. -/
def flattenTree : CommentTree → List Comment
  | .node c cs => c :: flattenForest cs

/-- All comments of a list of trees, in order. -/
def flattenForest : List CommentTree → List Comment
  | [] => []
  | t :: ts => flattenTree t ++ flattenForest ts

end

/-- Number of occurrences of a comment in a tree. -/
def countTree (x : Comment) (t : CommentTree) : Nat := (flattenTree t).count x

/-- One expansion step of the downward recursive CTE (postgres.go:112-123,
253-267, 549-563): the records whose parent id is among the given ids. -/
def childrenOf (store : List Comment) (ids : List Int) : List Comment :=
  store.filter (fun c =>
    match c.parentID with
    | none => false
    | some p => ids.contains p)

/-- The level-by-level unfolding of the downward recursive CTE: emit the
current level, then recurse on the children of that level. -/
def subtreeLevels (store : List Comment) : Nat → List Comment → List Comment
  | 0, _ => []
  | fuel + 1, level =>
    level ++ subtreeLevels store fuel (childrenOf store (level.map (fun c => c.id)))

/-- The row set produced by the downward recursive CTE anchored at
`WHERE id = rootID`, as used by `GetTree`, `Delete` and `Count`.  The fuel
`store.length + 1` covers every level of a chain-terminating store. -/
def fetchSubtreeRows (store : List Comment) (rootID : Int) : List Comment :=
  subtreeLevels store (store.length + 1) (store.filter (fun c => c.id = rootID))

/-- The id set of the delete CTE of `PostgresRepository.Delete`
(postgres.go:252-275). -/
def subtreeIDs (store : List Comment) (rootID : Int) : List Int :=
  (fetchSubtreeRows store rootID).map (fun c => c.id)

/-- Mirrors `PostgresRepository.Delete` (postgres.go:252-275): one atomic
`DELETE` of every row whose id is in the recursive closure of the given id. -/
def repoDelete (store : List Comment) (i : Int) : List Comment :=
  store.filter (fun c => !((subtreeIDs store i).contains c.id))

/-- Mirrors `PostgresRepository.GetTree` (postgres.go:90-232): fetch the whole
table (nil parent) or the recursive closure of the given id; keep the rows with
a null parent id as roots in row order; sort them with the exchange sort keyed
on the raw filter fields; paginate; build each selected root's tree from the
fetched row set.  The `ORDER BY` of the subtree branch only permutes the row
iteration order, which the list order already models as unspecified. -/
def repoGetTree (store : List Comment) (parentID : Option Int)
    (filter : CommentFilter) : List CommentTree :=
  let fetched := match parentID with
    | none => store
    | some pid => fetchSubtreeRows store pid
  let rootComments := fetched.filter (fun c => c.parentID.isNone)
  let sorted := sortRoots filter.sortBy filter.order rootComments
  let page := paginate filter.page filter.pageSize sorted
  page.map (fun r => buildTree fetched fetched.length r)

/-- The root-id set collected by the first loop of `Search`
(postgres.go:303-330): for every matching record, its own id when it is a root,
otherwise the id returned by `findRootComment`. -/
def resolvedRootIDs (store : List Comment) (q : String) : List Int :=
  (store.filter (matchesPattern q)).map (fun c =>
    match c.parentID with
    | none => c.id
    | some _ => findRootComment store c.id)

/-- Mirrors `PostgresRepository.Search` (postgres.go:278-435): collect the
root ids resolved from the matches; if none, return the empty forest; else
fetch the whole table, keep the null-parent rows whose id is among the resolved
roots, sort them with the exchange sort keyed on the normalized filter fields,
paginate, and build each selected root's full tree from the whole table. -/
def repoSearch (store : List Comment) (q : String) (filter : CommentFilter) :
    List CommentTree :=
  let rootIDs := resolvedRootIDs store q
  if rootIDs.isEmpty then []
  else
    let rootComments := store.filter (fun c => c.parentID.isNone && rootIDs.contains c.id)
    let sorted := sortRoots (normSortKey filter.sortBy) (normOrderKey filter.order) rootComments
    let page := paginate filter.page filter.pageSize sorted
    page.map (fun r => buildTree store store.length r)

/-- Mirrors `PostgresRepository.Count` (postgres.go:530-574). -/
def repoCount (store : List Comment) (parentID : Option Int) (search : String) : Nat :=
  if search ≠ emptyStr then
    ((store.filter (matchesPattern search)).map (fun c => c.id)).dedup.length
  else
    match parentID with
    | none => (store.filter (fun c => c.parentID.isNone)).length
    | some pid => (fetchSubtreeRows store pid).length

/-- The default normalization of `CommentUseCase.GetTree`
(usecase/comment.go:50-61). -/
def normalizeFilter (f : CommentFilter) : CommentFilter :=
  ⟨f.parentID, f.search,
   if f.page ≤ 0 then 1 else f.page,
   if f.pageSize ≤ 0 then 50 else f.pageSize,
   if f.sortBy = emptyStr then createdAtKey else f.sortBy,
   if f.order = emptyStr then descKey else f.order⟩

/-- Mirrors `CommentUseCase.GetTree` (usecase/comment.go:49-68): normalize the
filter, then dispatch to `Search` when a search text is set, else to
`GetTree`. -/
def ucGetTree (store : List Comment) (f : CommentFilter) : List CommentTree :=
  let g := normalizeFilter f
  if g.search ≠ emptyStr then repoSearch store g.search g
  else repoGetTree store g.parentID g

/-- Mirrors `CommentUseCase.Delete` (usecase/comment.go:71-82): existence check
through `GetByID` (a wrapped error when it fails), then the recursive delete.
Returns the store after the call together with the result. -/
def ucDelete (store : List Comment) (i : Int) : List Comment × Except DomainError Unit :=
  match repoGetByID store i with
  | .error e => (store, .error (.wrapped msgGetComment e))
  | .ok _ => (repoDelete store i, .ok ())

/-- The ids of the store rows are pairwise distinct (the `comments.id` primary
key of migration 001). -/
def idsNodup (store : List Comment) : Prop := (store.map (fun c => c.id)).Nodup

/-- Every row's upward parent walk reaches a parentless row within
`store.length` steps: the acyclicity-and-referential-validity invariant the
schema and creation path guarantee. -/
def chainsTerminate (store : List Comment) : Prop :=
  ∀ c ∈ store, (rootDist store store.length c).isSome

/-- The upward parent chain of `x` passes through `r`. -/
def leadsTo (store : List Comment) (x r : Comment) : Prop :=
  ∃ k, iterUp store k x = some r

/-- Executable bounded version of `leadsTo`; equivalent to it on
chain-terminating stores (shown below). -/
def reachesWithin (store : List Comment) (x r : Comment) : Bool :=
  (List.range (store.length + 1)).any (fun k => decide (iterUp store k x = some r))

/-- The upward parent chain of `x` passes through `r` within `fuel` steps. -/
def reachIn (store : List Comment) (fuel : Nat) (x r : Comment) : Bool :=
  (List.range (fuel + 1)).any (fun k => decide (iterUp store k x = some r))

instance (store : List Comment) : Decidable (idsNodup store) := by
  unfold idsNodup; infer_instance

instance (store : List Comment) : Decidable (chainsTerminate store) := by
  unfold chainsTerminate; infer_instance

theorem find_id_eq_some_iff {store : List Comment} {i : Int} {c : Comment} :
    store.find? (fun x => x.id = i) = some c → c ∈ store ∧ c.id = i := by
  intro h
  refine ⟨List.mem_of_find?_eq_some h, ?_⟩
  have := List.find?_some h
  simpa using this

theorem find_id_eq_none_iff {store : List Comment} {i : Int} :
    store.find? (fun x => x.id = i) = none ↔ ∀ c ∈ store, c.id ≠ i := by
  rw [List.find?_eq_none]
  constructor
  · intro h c hc
    have := h c hc
    simpa using this
  · intro h c hc
    simpa using h c hc

theorem id_unique {store : List Comment} (hnd : idsNodup store) {a b : Comment}
    (ha : a ∈ store) (hb : b ∈ store) (h : a.id = b.id) : a = b := by
  unfold idsNodup at hnd
  have := List.inj_on_of_nodup_map hnd
  exact this ha hb h

theorem find_id_of_mem {store : List Comment} (hnd : idsNodup store) {x : Comment}
    (hx : x ∈ store) : store.find? (fun c => c.id = x.id) = some x := by
  cases hfind : store.find? (fun c => c.id = x.id) with
  | none =>
    rw [find_id_eq_none_iff] at hfind
    exact absurd rfl (hfind x hx)
  | some c =>
    obtain ⟨hc, hid⟩ := find_id_eq_some_iff hfind
    rw [id_unique hnd hc hx hid]

theorem stepUp_mem {store : List Comment} {c p : Comment} (h : stepUp store c = some p) :
    p ∈ store := by
  unfold stepUp at h
  cases hc : c.parentID with
  | none => rw [hc] at h; exact absurd h (by simp)
  | some pid =>
    rw [hc] at h
    exact List.mem_of_find?_eq_some h

theorem iterUp_mem {store : List Comment} {x y : Comment} {k : Nat}
    (hx : x ∈ store) (h : iterUp store k x = some y) : y ∈ store := by
  induction k generalizing x with
  | zero =>
    simp only [iterUp] at h
    exact (Option.some.inj h) ▸ hx
  | succ k ih =>
    simp only [iterUp] at h
    cases hs : stepUp store x with
    | none => rw [hs] at h; exact absurd h (by simp)
    | some p =>
      rw [hs] at h
      exact ih (stepUp_mem hs) h

theorem iterUp_add (store : List Comment) (m k : Nat) (x : Comment) :
    iterUp store (m + k) x = (iterUp store m x).bind (iterUp store k) := by
  induction m generalizing x with
  | zero => simp [iterUp]
  | succ m ih =>
    have : m + 1 + k = (m + k) + 1 := by omega
    rw [this]
    simp only [iterUp]
    cases hs : stepUp store x with
    | none => simp
    | some p => simp [ih]

theorem iterUp_succ_right (store : List Comment) (k : Nat) (x : Comment) :
    iterUp store (k + 1) x = (iterUp store k x).bind (stepUp store) := by
  have h := iterUp_add store k 1 x
  rw [h]
  cases iterUp store k x with
  | none => rfl
  | some y =>
    show iterUp store 1 y = stepUp store y
    simp only [iterUp]
    cases stepUp store y <;> simp [iterUp]

theorem rootDist_mono {store : List Comment} {f g : Nat} {c : Comment}
    {v : Nat × Comment} (h : rootDist store f c = some v) (hfg : f ≤ g) :
    rootDist store g c = some v := by
  induction f generalizing c g v with
  | zero => simp [rootDist] at h
  | succ f ih =>
    obtain ⟨g', rfl⟩ : ∃ g', g = g' + 1 := ⟨g - 1, by omega⟩
    cases hp : c.parentID with
    | none =>
      simp only [rootDist, hp] at h ⊢
      exact h
    | some pid =>
      cases hf : store.find? (fun x => x.id = pid) with
      | none =>
        simp only [rootDist, hp, hf] at h
        exact absurd h (by simp)
      | some p =>
        simp only [rootDist, hp, hf] at h ⊢
        cases hr : rootDist store f p with
        | none =>
          rw [hr] at h
          exact absurd h (by simp)
        | some w =>
          rw [hr] at h
          rw [ih hr (by omega)]
          exact h

theorem rootDist_fst_lt {store : List Comment} {f : Nat} {c : Comment}
    {v : Nat × Comment} (h : rootDist store f c = some v) : v.1 < f := by
  induction f generalizing c v with
  | zero => simp [rootDist] at h
  | succ f ih =>
    cases hp : c.parentID with
    | none =>
      simp only [rootDist, hp] at h
      cases h
      omega
    | some pid =>
      cases hf : store.find? (fun x => x.id = pid) with
      | none =>
        simp only [rootDist, hp, hf] at h
        exact absurd h (by simp)
      | some p =>
        simp only [rootDist, hp, hf] at h
        cases hr : rootDist store f p with
        | none =>
          rw [hr] at h
          exact absurd h (by simp)
        | some w =>
          rw [hr] at h
          have h2 : (w.1 + 1, w.2) = v := Option.some.inj h
          have h3 : w.1 + 1 = v.1 := (Prod.ext_iff.mp h2).1
          have := ih hr
          omega

theorem rootDist_det {store : List Comment} {f g : Nat} {c : Comment}
    {v w : Nat × Comment} (hv : rootDist store f c = some v)
    (hw : rootDist store g c = some w) : v = w := by
  rcases Nat.le_total f g with h | h
  · have := rootDist_mono hv h
    rw [this] at hw
    exact Option.some.inj hw
  · have := rootDist_mono hw h
    rw [this] at hv
    exact (Option.some.inj hv).symm

theorem rootDist_shift {store : List Comment} {k : Nat} {x y : Comment}
    (hk : iterUp store k x = some y) {f : Nat} {v : Nat × Comment}
    (hv : rootDist store f x = some v) :
    k ≤ v.1 ∧ rootDist store (f - k) y = some (v.1 - k, v.2) := by
  induction k generalizing x f v with
  | zero =>
    simp only [iterUp] at hk
    cases hk
    exact ⟨Nat.zero_le _, by simpa using hv⟩
  | succ k ih =>
    simp only [iterUp] at hk
    cases hs : stepUp store x with
    | none =>
      rw [hs] at hk
      exact absurd hk (by simp)
    | some p =>
      rw [hs] at hk
      have hk' : iterUp store k p = some y := hk
      unfold stepUp at hs
      cases hp : x.parentID with
      | none =>
        rw [hp] at hs
        exact absurd hs (by simp)
      | some pid =>
        rw [hp] at hs
        have hs' : store.find? (fun x => x.id = pid) = some p := hs
        obtain ⟨f', rfl⟩ : ∃ f', f = f' + 1 := by
          cases f with
          | zero => simp [rootDist] at hv
          | succ f' => exact ⟨f', rfl⟩
        simp only [rootDist, hp, hs'] at hv
        cases hr : rootDist store f' p with
        | none =>
          rw [hr] at hv
          exact absurd hv (by simp)
        | some w =>
          rw [hr] at hv
          have hv' : (w.1 + 1, w.2) = v := Option.some.inj hv
          have hfst : w.1 + 1 = v.1 := (Prod.ext_iff.mp hv').1
          have hsnd : w.2 = v.2 := (Prod.ext_iff.mp hv').2
          obtain ⟨hle, hres⟩ := ih hk' hr
          constructor
          · omega
          · have h1 : f' + 1 - (k + 1) = f' - k := by omega
            have h2 : v.1 - (k + 1) = w.1 - k := by omega
            rw [h1, h2, ← hsnd]
            exact hres

theorem reachIn_iff {store : List Comment} {fuel : Nat} {x r : Comment} :
    reachIn store fuel x r = true ↔ ∃ k, k ≤ fuel ∧ iterUp store k x = some r := by
  unfold reachIn
  rw [List.any_eq_true]
  constructor
  · rintro ⟨k, hk, h⟩
    have := List.mem_range.mp hk
    exact ⟨k, by omega, by simpa using h⟩
  · rintro ⟨k, hk, h⟩
    exact ⟨k, List.mem_range.mpr (by omega), by simpa using h⟩

theorem flattenForest_eq (cs : List CommentTree) :
    flattenForest cs = (cs.map flattenTree).flatten := by
  induction cs with
  | nil => rfl
  | cons t ts ih => rw [flattenForest, ih, List.map_cons, List.flatten_cons]

theorem flattenTree_node (c : Comment) (cs : List CommentTree) :
    flattenTree (.node c cs) = c :: (cs.map flattenTree).flatten := by
  rw [flattenTree, flattenForest_eq]

theorem store_nodup {store : List Comment} (hnd : idsNodup store) : store.Nodup :=
  List.Nodup.of_map _ hnd

theorem buildTree_flatten_mem {store : List Comment} {fuel : Nat} {r x : Comment}
    (hr : r ∈ store) (hx : x ∈ flattenTree (buildTree store fuel r)) : x ∈ store := by
  induction fuel generalizing r with
  | zero =>
    rw [buildTree, flattenTree_node] at hx
    simp only [List.map_nil, List.flatten_nil, List.mem_singleton] at hx
    exact hx ▸ hr
  | succ fuel ih =>
    rw [buildTree, flattenTree_node] at hx
    rcases List.mem_cons.mp hx with h | h
    · exact h ▸ hr
    · rw [List.mem_flatten] at h
      obtain ⟨l, hl, hxl⟩ := h
      rw [List.mem_map] at hl
      obtain ⟨t, ht, rfl⟩ := hl
      rw [List.mem_map] at ht
      obtain ⟨c, hc, rfl⟩ := ht
      have hc' : c ∈ store := (List.mem_filter.mp hc).1
      exact ih hc' hxl

theorem sum_map_ite (l : List Comment) (p : Comment → Bool) :
    (l.map (fun c => if p c = true then 1 else 0)).sum = l.countP p := by
  induction l with
  | nil => rfl
  | cons a t ih =>
    simp only [List.map_cons, List.sum_cons, List.countP_cons, ih]
    by_cases h : p a = true
    · simp [h]
      omega
    · simp [h]

theorem countP_eq_one_of_unique {l : List Comment} (hnd : l.Nodup) {p : Comment → Bool}
    {a : Comment} (ha : a ∈ l) (hpa : p a = true)
    (huniq : ∀ b ∈ l, p b = true → b = a) : l.countP p = 1 := by
  induction l with
  | nil => cases ha
  | cons x t ih =>
    rw [List.countP_cons]
    rcases List.mem_cons.mp ha with rfl | hat
    · have h0 : t.countP p = 0 := by
        rw [List.countP_eq_zero]
        intro b hb hpb
        have := huniq b (List.mem_cons_of_mem _ hb) hpb
        exact absurd (this ▸ hb) (List.nodup_cons.mp hnd).1
      rw [h0, hpa]
      simp
    · have hxa : p x ≠ true := by
        intro hpx
        have := huniq x (List.mem_cons_self _ _) hpx
        exact absurd (this ▸ hat) (List.nodup_cons.mp hnd).1
      have := ih (List.nodup_cons.mp hnd).2 hat
        (fun b hb hpb => huniq b (List.mem_cons_of_mem _ hb) hpb)
      simp [hxa, this]

theorem acyclic_of_terminate {store : List Comment} (hterm : chainsTerminate store)
    {c : Comment} (hc : c ∈ store) {k : Nat} (h : iterUp store k c = some c) :
    k = 0 := by
  obtain ⟨v, hv⟩ := Option.isSome_iff_exists.mp (hterm c hc)
  obtain ⟨hle, hres⟩ := rootDist_shift h hv
  have heq := rootDist_det hres hv
  have h1 : v.1 - k = v.1 := (Prod.ext_iff.mp heq).1
  omega

theorem reach_index_unique {store : List Comment} (hterm : chainsTerminate store)
    {x y : Comment} (hx : x ∈ store) {k k' : Nat}
    (h : iterUp store k x = some y) (h' : iterUp store k' x = some y) : k = k' := by
  obtain ⟨v, hv⟩ := Option.isSome_iff_exists.mp (hterm x hx)
  obtain ⟨hle, hres⟩ := rootDist_shift h hv
  obtain ⟨hle', hres'⟩ := rootDist_shift h' hv
  have heq := rootDist_det hres hres'
  have h1 : v.1 - k = v.1 - k' := (Prod.ext_iff.mp heq).1
  omega

theorem reach_index_lt {store : List Comment} (hterm : chainsTerminate store)
    {x y : Comment} (hx : x ∈ store) {k : Nat}
    (h : iterUp store k x = some y) : k < store.length := by
  obtain ⟨v, hv⟩ := Option.isSome_iff_exists.mp (hterm x hx)
  obtain ⟨hle, _⟩ := rootDist_shift h hv
  have := rootDist_fst_lt hv
  omega

theorem leadsTo_iff_reachesWithin {store : List Comment} (hterm : chainsTerminate store)
    {x r : Comment} (hx : x ∈ store) :
    leadsTo store x r ↔ reachesWithin store x r = true := by
  unfold leadsTo reachesWithin
  rw [List.any_eq_true]
  constructor
  · rintro ⟨k, hk⟩
    have := reach_index_lt hterm hx hk
    exact ⟨k, List.mem_range.mpr (by omega), by simpa using hk⟩
  · rintro ⟨k, _, hk⟩
    exact ⟨k, by simpa using hk⟩

theorem buildTree_count {store : List Comment} (hnd : idsNodup store)
    (hterm : chainsTerminate store) {x : Comment} (hx : x ∈ store) :
    ∀ (fuel : Nat) (r : Comment), r ∈ store →
      (flattenTree (buildTree store fuel r)).count x =
        (if reachIn store fuel x r = true then 1 else 0) := by
  intro fuel
  induction fuel with
  | zero =>
    intro r hr
    rw [buildTree, flattenTree_node]
    simp only [List.map_nil, List.flatten_nil]
    have h1 : reachIn store 0 x r = true ↔ x = r := by
      rw [reachIn_iff]
      constructor
      · rintro ⟨k, hk, h⟩
        have hk0 : k = 0 := by omega
        subst hk0
        simpa [iterUp] using h
      · rintro rfl
        exact ⟨0, Nat.le_refl 0, rfl⟩
    by_cases h : x = r
    · subst h
      simp [h1, List.count_cons]
    · have h2 : reachIn store 0 x r = false :=
        Bool.eq_false_iff.mpr (fun hc => h (h1.mp hc))
      have h' : ¬r = x := fun hh => h hh.symm
      simp [List.count_cons, h2, h']
  | succ fuel ih =>
    intro r hr
    rw [buildTree, flattenTree_node, List.count_cons, List.count_flatten]
    rw [List.map_map, List.map_map]
    have hmap :
        (store.filter (fun z => z.parentID = some r.id)).map
            ((List.count x ∘ flattenTree) ∘ buildTree store fuel) =
          (store.filter (fun z => z.parentID = some r.id)).map
            (fun c => if reachIn store fuel x c = true then 1 else 0) := by
      apply List.map_congr_left
      intro c hc
      have hc' : c ∈ store := (List.mem_filter.mp hc).1
      exact ih c hc'
    rw [hmap, sum_map_ite]
    by_cases hxr : x = r
    · subst hxr
      have hre : reachIn store (fuel + 1) x x = true := by
        rw [reachIn_iff]
        exact ⟨0, by omega, rfl⟩
      have hzero : (store.filter (fun z => z.parentID = some x.id)).countP
          (fun c => reachIn store fuel x c) = 0 := by
        rw [List.countP_eq_zero]
        intro c hc hrc
        obtain ⟨hcs, hcp⟩ := List.mem_filter.mp hc
        have hcp' : c.parentID = some x.id := by simpa using hcp
        obtain ⟨k, hk, hit⟩ := reachIn_iff.mp hrc
        have hstep : stepUp store c = some x := by
          unfold stepUp
          rw [hcp']
          exact find_id_of_mem hnd hx
        have hcyc : iterUp store (k + 1) x = some x := by
          rw [iterUp_succ_right, hit]
          simpa using hstep
        have := acyclic_of_terminate hterm hx hcyc
        omega
      rw [hzero, hre]
      simp
    · by_cases hre : reachIn store (fuel + 1) x r = true
      · -- reachable: exactly one child on the chain
        obtain ⟨k, hk, hit⟩ := reachIn_iff.mp hre
        obtain ⟨k', rfl⟩ : ∃ k', k = k' + 1 := by
          cases k with
          | zero =>
            exfalso
            apply hxr
            simpa [iterUp] using hit
          | succ k' => exact ⟨k', rfl⟩
        rw [iterUp_succ_right] at hit
        cases hmid : iterUp store k' x with
        | none =>
          rw [hmid] at hit
          cases hit
        | some c' =>
          rw [hmid] at hit
          have hstep : stepUp store c' = some r := by simpa using hit
          have hc'mem : c' ∈ store := iterUp_mem hx hmid
          have hc'par : c'.parentID = some r.id := by
            unfold stepUp at hstep
            cases hp : c'.parentID with
            | none => rw [hp] at hstep; cases hstep
            | some pid =>
              rw [hp] at hstep
              have hfind : store.find? (fun z => z.id = pid) = some r := hstep
              obtain ⟨_, hid⟩ := find_id_eq_some_iff hfind
              rw [hid]
          have hone : (store.filter (fun z => z.parentID = some r.id)).countP
              (fun c => reachIn store fuel x c) = 1 := by
            apply countP_eq_one_of_unique
              ((store_nodup hnd).filter _)
              (List.mem_filter.mpr ⟨hc'mem, by simp [hc'par]⟩)
              (reachIn_iff.mpr ⟨k', by omega, hmid⟩)
            intro b hb hrb
            obtain ⟨hbs, hbp⟩ := List.mem_filter.mp hb
            have hbp' : b.parentID = some r.id := by simpa using hbp
            obtain ⟨j, hj, hjit⟩ := reachIn_iff.mp hrb
            have hbstep : stepUp store b = some r := by
              unfold stepUp
              rw [hbp']
              exact find_id_of_mem hnd hr
            have hjr : iterUp store (j + 1) x = some r := by
              rw [iterUp_succ_right, hjit]
              simpa using hbstep
            have hkr : iterUp store (k' + 1) x = some r := by
              rw [iterUp_succ_right, hmid]
              simpa using hstep
            have heq : j + 1 = k' + 1 := reach_index_unique hterm hx hjr hkr
            have hjk : j = k' := by omega
            subst hjk
            rw [hjit] at hmid
            exact Option.some.inj hmid
          have h' : ¬r = x := fun hh => hxr hh.symm
          rw [hone, hre]
          simp [h']
      · -- not reachable within fuel+1: no child is reachable within fuel
        have hre' : reachIn store (fuel + 1) x r = false := Bool.eq_false_iff.mpr hre
        have hzero : (store.filter (fun z => z.parentID = some r.id)).countP
            (fun c => reachIn store fuel x c) = 0 := by
          rw [List.countP_eq_zero]
          intro c hc hrc
          obtain ⟨hcs, hcp⟩ := List.mem_filter.mp hc
          have hcp' : c.parentID = some r.id := by simpa using hcp
          obtain ⟨k, hk, hit⟩ := reachIn_iff.mp hrc
          have hstep : stepUp store c = some r := by
            unfold stepUp
            rw [hcp']
            exact find_id_of_mem hnd hr
          have hreach : iterUp store (k + 1) x = some r := by
            rw [iterUp_succ_right, hit]
            simpa using hstep
          exact hre (reachIn_iff.mpr ⟨k + 1, by omega, hreach⟩)
        have h' : ¬r = x := fun hh => hxr hh.symm
        rw [hzero, hre']
        simp [h']

theorem selPass_cons_perm (cmp : Comment → Comment → Bool) (a : Comment) (l : List Comment) :
    List.Perm ((selPass cmp a l).1 :: (selPass cmp a l).2) (a :: l) := by
  induction l generalizing a with
  | nil => simp [selPass]
  | cons b rest ih =>
    simp only [selPass]
    by_cases h : cmp a b = true
    · simp only [h, if_true]
      refine List.Perm.trans ?_ ((ih b).cons a)
      exact List.Perm.swap a (selPass cmp b rest).1 (selPass cmp b rest).2
    · simp only [h, if_false]
      refine List.Perm.trans ?_ (((ih a).cons b).trans (List.Perm.swap a b rest))
      exact List.Perm.swap b (selPass cmp a rest).1 (selPass cmp a rest).2

theorem selPass_min {cmp : Comment → Comment → Bool} {f : Comment → Int}
    (hcmp : ∀ u v, cmp u v = true ↔ f v < f u) (a : Comment) (l : List Comment) :
    f ((selPass cmp a l).1) ≤ f a ∧
      ∀ x ∈ (selPass cmp a l).2, f ((selPass cmp a l).1) ≤ f x := by
  induction l generalizing a with
  | nil => simp [selPass]
  | cons b rest ih =>
    simp only [selPass]
    by_cases h : cmp a b = true
    · simp only [h, if_true]
      have hlt : f b < f a := (hcmp a b).mp h
      obtain ⟨h1, h2⟩ := ih b
      refine ⟨le_trans h1 (le_of_lt hlt), ?_⟩
      intro x hx
      rcases List.mem_cons.mp hx with rfl | hx'
      · exact le_trans h1 (le_of_lt hlt)
      · exact h2 x hx'
    · simp only [h, if_false]
      have hge : f a ≤ f b := by
        have := (hcmp a b).not.mp h
        omega
      obtain ⟨h1, h2⟩ := ih a
      refine ⟨h1, ?_⟩
      intro x hx
      rcases List.mem_cons.mp hx with rfl | hx'
      · exact le_trans h1 hge
      · exact h2 x hx'

theorem exchangeSortFuel_perm (cmp : Comment → Comment → Bool) :
    ∀ (fuel : Nat) (l : List Comment), List.Perm (exchangeSortFuel cmp fuel l) l := by
  intro fuel
  induction fuel with
  | zero =>
    intro l
    exact List.Perm.refl l
  | succ n ih =>
    intro l
    cases l with
    | nil => simp [exchangeSortFuel]
    | cons a rest =>
      rw [exchangeSortFuel]
      exact List.Perm.trans ((ih (selPass cmp a rest).2).cons _)
        (selPass_cons_perm cmp a rest)

theorem exchangeSort_perm (cmp : Comment → Comment → Bool) :
    ∀ l : List Comment, List.Perm (exchangeSort cmp l) l := by
  intro l
  exact exchangeSortFuel_perm cmp l.length l

theorem exchangeSortFuel_sorted (f : Comment → Int) {cmp : Comment → Comment → Bool}
    (hcmp : ∀ u v, cmp u v = true ↔ f v < f u) :
    ∀ (n : Nat) (l : List Comment), l.length ≤ n →
      (exchangeSortFuel cmp n l).Pairwise (fun u v => f u ≤ f v) := by
  intro n
  induction n with
  | zero =>
    intro l hl
    have : l = [] := List.length_eq_zero.mp (by omega)
    subst this
    simp [exchangeSortFuel]
  | succ n ih =>
    intro l hl
    cases l with
    | nil => simp [exchangeSortFuel]
    | cons a rest =>
      rw [exchangeSortFuel]
      have hlen : (selPass cmp a rest).2.length ≤ n := by
        rw [selPass_snd_length]
        simp only [List.length_cons] at hl
        omega
      refine List.Pairwise.cons ?_ (ih (selPass cmp a rest).2 hlen)
      intro y hy
      have hy' : y ∈ (selPass cmp a rest).2 :=
        (exchangeSortFuel_perm cmp _ _).mem_iff.mp hy
      exact (selPass_min hcmp a rest).2 y hy'

theorem exchangeSort_sorted (f : Comment → Int) {cmp : Comment → Comment → Bool}
    (hcmp : ∀ u v, cmp u v = true ↔ f v < f u) :
    ∀ l : List Comment, (exchangeSort cmp l).Pairwise (fun u v => f u ≤ f v) := by
  intro l
  exact exchangeSortFuel_sorted f hcmp l.length l (le_refl _)

theorem sortRoots_perm (sortBy order : String) (roots : List Comment) :
    List.Perm (sortRoots sortBy order roots) roots := by
  unfold sortRoots
  by_cases h1 : sortBy = createdAtKey
  · simp only [h1, if_true]
    by_cases h2 : order = descKey
    · simp only [h2, if_true]
      exact exchangeSort_perm _ _
    · simp only [h2, if_false]
      exact exchangeSort_perm _ _
  · simp only [h1, if_false]
    by_cases h3 : sortBy = updatedAtKey
    · simp only [h3, if_true]
      by_cases h2 : order = descKey
      · simp only [h2, if_true]
        exact exchangeSort_perm _ _
      · simp only [h2, if_false]
        exact exchangeSort_perm _ _
    · simp only [h3, if_false]
      exact List.Perm.refl _

theorem paginate_eq_drop_take (l : List Comment) (p s : Int) (hp : 1 ≤ p) (hs : 1 ≤ s) :
    paginate p s l = (l.drop ((p - 1) * s).toNat).take s.toNat := by
  unfold paginate
  have hstart : 0 ≤ (p - 1) * s := mul_nonneg (by omega) (by omega)
  by_cases h1 : (p - 1) * s ≥ (l.length : Int)
  · rw [if_pos h1]
    have hlen : l.length ≤ ((p - 1) * s).toNat := by omega
    rw [List.drop_eq_nil_of_le hlen]
    simp
  · rw [if_neg h1]
    by_cases h2 : (p - 1) * s + s > (l.length : Int)
    · rw [if_pos h2]
      have hlen : (l.drop ((p - 1) * s).toNat).length ≤ s.toNat := by
        rw [List.length_drop]
        omega
      rw [List.take_of_length_le hlen]
    · rw [if_neg h2]

theorem paginate_empty_of_start_ge (l : List Comment) (p s : Int)
    (h : (l.length : Int) ≤ (p - 1) * s) : paginate p s l = [] := by
  unfold paginate
  rw [if_pos (by omega)]

theorem paginate_all (l : List Comment) (s : Int) (hs : (l.length : Int) ≤ s) :
    paginate 1 s l = l := by
  unfold paginate
  simp only [sub_self, zero_mul, zero_add]
  by_cases h1 : (0 : Int) ≥ (l.length : Int)
  · rw [if_pos h1]
    have : l.length = 0 := by omega
    exact (List.length_eq_zero.mp this).symm
  · rw [if_neg h1]
    by_cases h2 : s > (l.length : Int)
    · rw [if_pos h2]
      simp
    · rw [if_neg h2]
      have hle : l.length ≤ s.toNat := by omega
      simp [List.take_of_length_le hle]

theorem childrenOf_subset (store : List Comment) (ids : List Int) :
    ∀ c ∈ childrenOf store ids, c ∈ store := by
  intro c hc
  exact (List.mem_filter.mp hc).1

theorem subtreeLevels_subset (store : List Comment) :
    ∀ (fuel : Nat) (level : List Comment), (∀ z ∈ level, z ∈ store) →
      ∀ y ∈ subtreeLevels store fuel level, y ∈ store := by
  intro fuel
  induction fuel with
  | zero => intro level _ y hy; simp [subtreeLevels] at hy
  | succ fuel ih =>
    intro level hlev y hy
    rw [subtreeLevels] at hy
    rcases List.mem_append.mp hy with h | h
    · exact hlev y h
    · exact ih _ (childrenOf_subset store _) y h

theorem childrenOf_step {store : List Comment} (hnd : idsNodup store)
    {level : List Comment} (hlev : ∀ z ∈ level, z ∈ store) {c : Comment} :
    c ∈ childrenOf store (level.map (fun z => z.id)) ↔
      c ∈ store ∧ ∃ z ∈ level, stepUp store c = some z := by
  unfold childrenOf
  rw [List.mem_filter]
  constructor
  · rintro ⟨hcs, hpred⟩
    refine ⟨hcs, ?_⟩
    cases hp : c.parentID with
    | none => rw [hp] at hpred; simp at hpred
    | some pid =>
      rw [hp] at hpred
      have hpred' : pid ∈ level.map (fun z => z.id) := by simpa using hpred
      obtain ⟨z, hz, hzid⟩ := List.mem_map.mp hpred'
      refine ⟨z, hz, ?_⟩
      unfold stepUp
      rw [hp, ← hzid]
      exact find_id_of_mem hnd (hlev z hz)
  · rintro ⟨hcs, z, hz, hstep⟩
    refine ⟨hcs, ?_⟩
    unfold stepUp at hstep
    cases hp : c.parentID with
    | none => rw [hp] at hstep; cases hstep
    | some pid =>
      rw [hp] at hstep
      have hfind : store.find? (fun x => x.id = pid) = some z := hstep
      obtain ⟨_, hzid⟩ := find_id_eq_some_iff hfind
      show (level.map (fun z => z.id)).contains pid = true
      simpa using List.mem_map.mpr ⟨z, hz, hzid⟩

theorem subtreeLevels_mem {store : List Comment} (hnd : idsNodup store) :
    ∀ (fuel : Nat) (level : List Comment), (∀ z ∈ level, z ∈ store) →
      ∀ y, y ∈ store →
        (y ∈ subtreeLevels store fuel level ↔
          ∃ j, j < fuel ∧ ∃ z ∈ level, iterUp store j y = some z) := by
  intro fuel
  induction fuel with
  | zero =>
    intro level _ y _
    simp [subtreeLevels]
  | succ fuel ih =>
    intro level hlev y hy
    rw [subtreeLevels, List.mem_append]
    rw [ih _ (childrenOf_subset store _) y hy]
    constructor
    · rintro (h | ⟨j, hj, c, hc, hit⟩)
      · exact ⟨0, by omega, y, h, rfl⟩
      · obtain ⟨hcs, z, hz, hstep⟩ := (childrenOf_step hnd hlev).mp hc
        refine ⟨j + 1, by omega, z, hz, ?_⟩
        rw [iterUp_succ_right, hit]
        simpa using hstep
    · rintro ⟨j, hj, z, hz, hit⟩
      cases j with
      | zero =>
        left
        have : y = z := by simpa [iterUp] using hit
        exact this ▸ hz
      | succ j =>
        right
        rw [iterUp_succ_right] at hit
        cases hmid : iterUp store j y with
        | none => rw [hmid] at hit; cases hit
        | some c =>
          rw [hmid] at hit
          have hstep : stepUp store c = some z := by simpa using hit
          have hcs : c ∈ store := iterUp_mem hy hmid
          refine ⟨j, by omega, c, ?_, hmid⟩
          exact (childrenOf_step hnd hlev).mpr ⟨hcs, z, hz, hstep⟩

theorem fetchSubtreeRows_subset (store : List Comment) (rootID : Int) :
    ∀ y ∈ fetchSubtreeRows store rootID, y ∈ store := by
  intro y hy
  exact subtreeLevels_subset store _ _ (fun z hz => (List.mem_filter.mp hz).1) y hy

theorem fetchSubtreeRows_mem {store : List Comment} (hnd : idsNodup store)
    {c : Comment} (hc : c ∈ store) {y : Comment} (hy : y ∈ store) :
    y ∈ fetchSubtreeRows store c.id ↔ reachesWithin store y c = true := by
  unfold fetchSubtreeRows
  rw [subtreeLevels_mem hnd _ _ (fun z hz => (List.mem_filter.mp hz).1) y hy]
  unfold reachesWithin
  rw [List.any_eq_true]
  constructor
  · rintro ⟨j, hj, z, hz, hit⟩
    obtain ⟨hzs, hzid⟩ := List.mem_filter.mp hz
    have hzid' : z.id = c.id := by simpa using hzid
    have hzc : z = c := id_unique hnd hzs hc hzid'
    subst hzc
    exact ⟨j, List.mem_range.mpr (by omega), by simpa using hit⟩
  · rintro ⟨j, hjr, hit⟩
    have hj : j < store.length + 1 := List.mem_range.mp hjr
    refine ⟨j, by omega, c, ?_, by simpa using hit⟩
    exact List.mem_filter.mpr ⟨hc, by simp⟩

theorem childrenOf_filter_iter {store : List Comment} (hnd : idsNodup store)
    (c : Comment) (j : Nat) :
    childrenOf store
        ((store.filter (fun y => iterUp store j y = some c)).map (fun z => z.id)) =
      store.filter (fun y => iterUp store (j + 1) y = some c) := by
  unfold childrenOf
  apply List.filter_congr
  intro a ha
  apply Bool.eq_iff_iff.mpr
  have hlev : ∀ w ∈ store.filter (fun y => iterUp store j y = some c), w ∈ store :=
    fun w hw => (List.mem_filter.mp hw).1
  constructor
  · intro hpred
    have hmem : a ∈ childrenOf store
        ((store.filter (fun y => iterUp store j y = some c)).map (fun z => z.id)) := by
      unfold childrenOf
      exact List.mem_filter.mpr ⟨ha, hpred⟩
    obtain ⟨_, z, hz, hstep⟩ := (childrenOf_step hnd hlev).mp hmem
    obtain ⟨hzs, hzj⟩ := List.mem_filter.mp hz
    have hzj' : iterUp store j z = some c := by simpa using hzj
    have hgoal : iterUp store (j + 1) a = some c := by
      show (stepUp store a).bind (iterUp store j) = some c
      rw [hstep]
      simpa using hzj'
    simpa using hgoal
  · intro hpred
    have hit : iterUp store (j + 1) a = some c := by simpa using hpred
    have hit' : (stepUp store a).bind (iterUp store j) = some c := hit
    cases hs : stepUp store a with
    | none =>
      rw [hs] at hit'
      cases hit'
    | some z =>
      rw [hs] at hit'
      have hzs : z ∈ store := stepUp_mem hs
      have hzj : iterUp store j z = some c := by simpa using hit'
      have hmem := (childrenOf_step hnd hlev).mpr
        ⟨ha, z, List.mem_filter.mpr ⟨hzs, by simpa using hzj⟩, hs⟩
      unfold childrenOf at hmem
      exact (List.mem_filter.mp hmem).2

theorem subtreeLevels_filter {store : List Comment} (hnd : idsNodup store) (c : Comment) :
    ∀ (fuel j : Nat),
      subtreeLevels store fuel (store.filter (fun y => iterUp store j y = some c)) =
        ((List.range fuel).map
          (fun i => store.filter (fun y => iterUp store (j + i) y = some c))).flatten := by
  intro fuel
  induction fuel with
  | zero =>
    intro j
    simp [subtreeLevels]
  | succ fuel ih =>
    intro j
    rw [subtreeLevels, childrenOf_filter_iter hnd c j, ih (j + 1)]
    rw [List.range_succ_eq_map, List.map_cons, List.flatten_cons]
    congr 1
    rw [List.map_map]
    apply congrArg
    apply List.map_congr_left
    intro i _
    have hidx : j + 1 + i = j + (Nat.succ i) := by omega
    rw [hidx]
    rfl

theorem fetchSubtreeRows_eq_flatten {store : List Comment} (hnd : idsNodup store)
    {c : Comment} (hc : c ∈ store) :
    fetchSubtreeRows store c.id =
      ((List.range (store.length + 1)).map
        (fun i => store.filter (fun y => iterUp store i y = some c))).flatten := by
  unfold fetchSubtreeRows
  have h0 : store.filter (fun z => z.id = c.id) =
      store.filter (fun y => iterUp store 0 y = some c) := by
    apply List.filter_congr
    intro a ha
    apply decide_eq_decide.mpr
    constructor
    · intro hid
      have : a = c := id_unique hnd ha hc hid
      simp [iterUp, this]
    · intro hit
      have : a = c := by simpa [iterUp] using hit
      rw [this]
  rw [h0, subtreeLevels_filter hnd c (store.length + 1) 0]
  apply congrArg
  apply List.map_congr_left
  intro i _
  have hidx : 0 + i = i := by omega
  rw [hidx]

theorem fetchSubtreeRows_nodup {store : List Comment} (hnd : idsNodup store)
    (hterm : chainsTerminate store) {c : Comment} (hc : c ∈ store) :
    (fetchSubtreeRows store c.id).Nodup := by
  rw [fetchSubtreeRows_eq_flatten hnd hc]
  rw [List.nodup_flatten]
  constructor
  · intro l hl
    obtain ⟨i, _, rfl⟩ := List.mem_map.mp hl
    exact (store_nodup hnd).filter _
  · rw [List.pairwise_map]
    apply (List.pairwise_lt_range _).imp
    intro i i' hii
    intro y hyi hyi'
    obtain ⟨hys, hyit⟩ := List.mem_filter.mp hyi
    obtain ⟨_, hyit'⟩ := List.mem_filter.mp hyi'
    have h1 : iterUp store i y = some c := by simpa using hyit
    have h2 : iterUp store i' y = some c := by simpa using hyit'
    have := reach_index_unique hterm hys h1 h2
    omega

theorem fetchSubtreeRows_perm {store : List Comment} (hnd : idsNodup store)
    (hterm : chainsTerminate store) {c : Comment} (hc : c ∈ store) :
    List.Perm (fetchSubtreeRows store c.id)
      (store.filter (fun y => reachesWithin store y c)) := by
  apply (List.perm_ext_iff_of_nodup (fetchSubtreeRows_nodup hnd hterm hc)
    ((store_nodup hnd).filter _)).mpr
  intro a
  rw [List.mem_filter]
  constructor
  · intro ha
    have has : a ∈ store := fetchSubtreeRows_subset store _ a ha
    exact ⟨has, (fetchSubtreeRows_mem hnd hc has).mp ha⟩
  · rintro ⟨has, hr⟩
    exact (fetchSubtreeRows_mem hnd hc has).mpr hr

theorem rootDist_iterUp {store : List Comment} {f : Nat} {c : Comment}
    {v : Nat × Comment} (h : rootDist store f c = some v) :
    iterUp store v.1 c = some v.2 ∧ v.2.parentID = none := by
  induction f generalizing c v with
  | zero => simp [rootDist] at h
  | succ f ih =>
    cases hp : c.parentID with
    | none =>
      simp only [rootDist, hp] at h
      cases h
      exact ⟨rfl, hp⟩
    | some pid =>
      cases hf : store.find? (fun x => x.id = pid) with
      | none =>
        simp only [rootDist, hp, hf] at h
        exact absurd h (by simp)
      | some p =>
        simp only [rootDist, hp, hf] at h
        cases hr : rootDist store f p with
        | none =>
          rw [hr] at h
          exact absurd h (by simp)
        | some w =>
          rw [hr] at h
          have hv : (w.1 + 1, w.2) = v := Option.some.inj h
          obtain ⟨hit, hroot⟩ := ih hr
          have hstep : stepUp store c = some p := by
            unfold stepUp
            rw [hp]
            exact hf
          refine ⟨?_, by rw [← (Prod.ext_iff.mp hv).2]; exact hroot⟩
          rw [← (Prod.ext_iff.mp hv).1]
          show (stepUp store c).bind (iterUp store w.1) = some v.2
          rw [hstep]
          show iterUp store w.1 p = some v.2
          rw [hit, ← (Prod.ext_iff.mp hv).2]

theorem findRootComment_spec {store : List Comment} (hnd : idsNodup store)
    (hterm : chainsTerminate store) {m : Comment} (hm : m ∈ store) :
    ∃ (k : Nat) (r : Comment), r ∈ store ∧ iterUp store k m = some r ∧
      r.parentID = none ∧ findRootComment store m.id = r.id := by
  obtain ⟨v, hv⟩ := Option.isSome_iff_exists.mp (hterm m hm)
  refine ⟨v.1, v.2, ?_, ?_, ?_, ?_⟩
  · exact iterUp_mem hm (rootDist_iterUp hv).1
  · exact (rootDist_iterUp hv).1
  · exact (rootDist_iterUp hv).2
  · unfold findRootComment
    rw [find_id_of_mem hnd hm]
    show (match rootDist store store.length m with
          | none => m.id
          | some kr => kr.2.id) = v.2.id
    rw [hv]

theorem subtreeIDs_mem {store : List Comment} (hnd : idsNodup store)
    {c : Comment} (hc : c ∈ store) {y : Comment} (hy : y ∈ store) :
    (subtreeIDs store c.id).contains y.id = true ↔ reachesWithin store y c = true := by
  unfold subtreeIDs
  constructor
  · intro h
    have h' : y.id ∈ (fetchSubtreeRows store c.id).map (fun z => z.id) := by
      simpa using h
    obtain ⟨z, hz, hzid⟩ := List.mem_map.mp h'
    have hzs : z ∈ store := fetchSubtreeRows_subset store _ z hz
    have : z = y := id_unique hnd hzs hy hzid
    subst this
    exact (fetchSubtreeRows_mem hnd hc hzs).mp hz
  · intro h
    have hmem : y ∈ fetchSubtreeRows store c.id := (fetchSubtreeRows_mem hnd hc hy).mpr h
    simpa using List.mem_map.mpr ⟨y, hmem, rfl⟩

/-- Content string of the worked examples: "hello". -/
def helloStr : String := "hello"

/-- Content string of the worked examples: "world". -/
def worldStr : String := "world"

/-- Content string of the worked examples: "x". -/
def xStr : String := "x"

/-- A single root record used by the concrete checks. -/
def exRoot : Comment := ⟨1, none, helloStr, 10, 10⟩

/-- A child of `exRoot` whose content does not match "hello". -/
def exChild : Comment := ⟨2, some 1, worldStr, 20, 20⟩

/-- A second-level record below `exChild`. -/
def exGrand : Comment := ⟨3, some 2, xStr, 30, 30⟩

/-- The three-record example store: one thread of depth three. -/
def exStore : List Comment := [exRoot, exChild, exGrand]

/-- Three roots with a created-at tie between the first two, for the
sort-stability counterexample. -/
def tieR1 : Comment := ⟨1, none, helloStr, 2, 0⟩

/-- Second root carrying the same created-at value as `tieR1`. -/
def tieR2 : Comment := ⟨2, none, worldStr, 2, 0⟩

/-- Third root with a strictly smaller created-at value. -/
def tieR3 : Comment := ⟨3, none, xStr, 1, 0⟩

/-- C1.  The spec says `Create` with a non-existing parent fails with
`InvalidParent`.  The code instead propagates the repository's
`ErrCommentNotFound` wrapped as "failed to get parent comment"
(usecase/comment.go:32-35): `PostgresRepository.GetByID` never returns a nil
comment with a nil error, so the `parent == nil ⇒ ErrInvalidParent` branch
(line 37) is unreachable.  The validation-ordering half of the claim holds:
both errors are returned before any insert, leaving the store unchanged. -/
theorem claim_c1 (store : List Comment) (pid : Int) (content : String)
    (now newID : Int) (habs : store.find? (fun c => c.id = pid) = none) :
    (content ≠ emptyStr →
      ucCreate store (some pid) content now newID =
        (store, Except.error
          (DomainError.wrapped msgGetParent DomainError.commentNotFound)) ∧
      (ucCreate store (some pid) content now newID).2 ≠
        Except.error DomainError.invalidParent) ∧
    ucCreate store none emptyStr now newID =
      (store, Except.error DomainError.emptyContent) ∧
    ucCreate store (some pid) emptyStr now newID =
      (store, Except.error DomainError.emptyContent) := by
  refine ⟨?_, ?_, ?_⟩
  · intro hne
    simp [ucCreate, repoGetByID, if_neg hne, habs]
  · unfold ucCreate
    rw [if_pos rfl]
  · unfold ucCreate
    rw [if_pos rfl]

/-- Closed instance of `claim_c1`: the store holding only record 1, creating
under the absent parent id 999 and with empty content. -/
theorem claim_c1_witness :
    (ucCreate [exRoot] (some 999) xStr 5 7 =
        ([exRoot], Except.error
          (DomainError.wrapped msgGetParent DomainError.commentNotFound)) ∧
      (ucCreate [exRoot] (some 999) xStr 5 7).2 ≠
        Except.error DomainError.invalidParent) ∧
    ucCreate [exRoot] none emptyStr 5 7 =
      ([exRoot], Except.error DomainError.emptyContent) ∧
    ucCreate [exRoot] (some 999) emptyStr 5 7 =
      ([exRoot], Except.error DomainError.emptyContent) := by
  have h := claim_c1 [exRoot] 999 xStr 5 7 (by decide)
  exact ⟨h.1 (by decide), h.2⟩

/-- C3.  Pagination over a sorted root list returns the `[(p-1)*s, (p-1)*s+s)`
slice clipped to the list bounds (`drop` then `take`), and an out-of-range
start yields the empty page rather than an error (postgres.go:213-222). -/
theorem claim_c3 (l : List Comment) (p s : Int) (hp : 1 ≤ p) (hs : 1 ≤ s) :
    paginate p s l = (l.drop ((p - 1) * s).toNat).take s.toNat ∧
    ((l.length : Int) ≤ (p - 1) * s → paginate p s l = []) :=
  ⟨paginate_eq_drop_take l p s hp hs, paginate_empty_of_start_ge l p s⟩

/-- Ten distinct root records for the pagination witness. -/
def tenRoots : List Comment :=
  [⟨1, none, emptyStr, 10, 0⟩, ⟨2, none, emptyStr, 9, 0⟩, ⟨3, none, emptyStr, 8, 0⟩,
   ⟨4, none, emptyStr, 7, 0⟩, ⟨5, none, emptyStr, 6, 0⟩, ⟨6, none, emptyStr, 5, 0⟩,
   ⟨7, none, emptyStr, 4, 0⟩, ⟨8, none, emptyStr, 3, 0⟩, ⟨9, none, emptyStr, 2, 0⟩,
   ⟨10, none, emptyStr, 1, 0⟩]

/-- Closed instance of `claim_c3`: page 2 of size 5 over ten sorted roots is
exactly roots 6 through 10, and page 3 is empty. -/
theorem claim_c3_witness :
    paginate 2 5 tenRoots =
      [⟨6, none, emptyStr, 5, 0⟩, ⟨7, none, emptyStr, 4, 0⟩, ⟨8, none, emptyStr, 3, 0⟩,
       ⟨9, none, emptyStr, 2, 0⟩, ⟨10, none, emptyStr, 1, 0⟩] ∧
    paginate 3 5 tenRoots = [] := by
  constructor
  · rw [(claim_c3 tenRoots 2 5 (by decide) (by decide)).1]
    decide
  · exact (claim_c3 tenRoots 3 5 (by decide) (by decide)).2 (by decide)

/-- C4.  `CommentUseCase.GetTree` replaces a non-positive page with 1, a
non-positive page size with 50, an empty sort key with `created_at`, an empty
direction with `desc`, and only then dispatches to `Search` or the repository
`GetTree` (usecase/comment.go:49-68). -/
theorem claim_c4 (store : List Comment) (f : CommentFilter) :
    (f.page ≤ 0 → (normalizeFilter f).page = 1) ∧
    (f.pageSize ≤ 0 → (normalizeFilter f).pageSize = 50) ∧
    (f.sortBy = emptyStr → (normalizeFilter f).sortBy = createdAtKey) ∧
    (f.order = emptyStr → (normalizeFilter f).order = descKey) ∧
    (0 < f.page → (normalizeFilter f).page = f.page) ∧
    (0 < f.pageSize → (normalizeFilter f).pageSize = f.pageSize) ∧
    ucGetTree store f =
      (if (normalizeFilter f).search ≠ emptyStr
       then repoSearch store (normalizeFilter f).search (normalizeFilter f)
       else repoGetTree store (normalizeFilter f).parentID (normalizeFilter f)) := by
  refine ⟨?_, ?_, ?_, ?_, ?_, ?_, rfl⟩
  · intro h
    simp [normalizeFilter, if_pos h]
  · intro h
    simp [normalizeFilter, if_pos h]
  · intro h
    simp [normalizeFilter, if_pos h]
  · intro h
    simp [normalizeFilter, if_pos h]
  · intro h
    simp [normalizeFilter]
    omega
  · intro h
    simp [normalizeFilter]
    omega

/-- Closed instance of `claim_c4` at the filter with page 0, page size -3 and
unset sort fields. -/
theorem claim_c4_witness :
    (normalizeFilter ⟨none, emptyStr, 0, -3, emptyStr, emptyStr⟩).page = 1 ∧
    (normalizeFilter ⟨none, emptyStr, 0, -3, emptyStr, emptyStr⟩).pageSize = 50 ∧
    (normalizeFilter ⟨none, emptyStr, 0, -3, emptyStr, emptyStr⟩).sortBy = createdAtKey ∧
    (normalizeFilter ⟨none, emptyStr, 0, -3, emptyStr, emptyStr⟩).order = descKey := by
  have h := claim_c4 [] ⟨none, emptyStr, 0, -3, emptyStr, emptyStr⟩
  exact ⟨h.1 (by decide), h.2.1 (by decide), h.2.2.1 rfl, h.2.2.2.1 rfl⟩

/-- C2 counterexample.  The ordering step is the exchange sort of
postgres.go:174-211, which is not stable: with ascending `created_at` order on
`[tieR1, tieR2, tieR3]` (keys 2, 2, 1), the two tied roots come out as
`[tieR3, tieR2, tieR1]` — `tieR2` now precedes `tieR1` although `tieR1`
preceded it in the input and their keys are equal.  A stable sort would return
`[tieR3, tieR1, tieR2]`. -/
theorem claim_c2_counterexample :
    tieR1.createdAt = tieR2.createdAt ∧
    sortRoots createdAtKey ascKey [tieR1, tieR2, tieR3] = [tieR3, tieR2, tieR1] ∧
    sortRoots createdAtKey ascKey [tieR1, tieR2, tieR3] ≠ [tieR3, tieR1, tieR2] := by
  refine ⟨rfl, ?_, ?_⟩ <;> decide

/-- C2 amended.  The ordering step does sort the roots by the chosen timestamp
field in the chosen direction — the output is a permutation of the input that
is pairwise ordered by the key — but it is a selection-style exchange sort,
so the relative input order of equal-key roots is not preserved.  Any
direction value other than `desc` takes the ascending branch. -/
theorem claim_c2_amended (sortBy order : String) (roots : List Comment) :
    List.Perm (sortRoots sortBy order roots) roots ∧
    (sortBy = createdAtKey → order = descKey →
      (sortRoots sortBy order roots).Pairwise (fun u v => v.createdAt ≤ u.createdAt)) ∧
    (sortBy = createdAtKey → order ≠ descKey →
      (sortRoots sortBy order roots).Pairwise (fun u v => u.createdAt ≤ v.createdAt)) ∧
    (sortBy = updatedAtKey → order = descKey →
      (sortRoots sortBy order roots).Pairwise (fun u v => v.updatedAt ≤ u.updatedAt)) ∧
    (sortBy = updatedAtKey → order ≠ descKey →
      (sortRoots sortBy order roots).Pairwise (fun u v => u.updatedAt ≤ v.updatedAt)) := by
  refine ⟨sortRoots_perm sortBy order roots, ?_, ?_, ?_, ?_⟩
  · rintro rfl rfl
    unfold sortRoots
    rw [if_pos rfl, if_pos rfl]
    refine List.Pairwise.imp ?_
      (exchangeSort_sorted (fun u => -u.createdAt) (by intro u v; simp) roots)
    intro u v hk
    omega
  · rintro rfl hord
    unfold sortRoots
    rw [if_pos rfl, if_neg hord]
    exact exchangeSort_sorted (fun u => u.createdAt) (by intro u v; simp) roots
  · rintro rfl rfl
    unfold sortRoots
    rw [if_neg (by decide), if_pos rfl, if_pos rfl]
    refine List.Pairwise.imp ?_
      (exchangeSort_sorted (fun u => -u.updatedAt) (by intro u v; simp) roots)
    intro u v hk
    omega
  · rintro rfl hord
    unfold sortRoots
    rw [if_neg (by decide), if_pos rfl, if_neg hord]
    exact exchangeSort_sorted (fun u => u.updatedAt) (by intro u v; simp) roots

/-- Closed instance of `claim_c2_amended` on the tie example in ascending
created-at order: the output is a permutation of the input and is pairwise
ascending. -/
theorem claim_c2_amended_witness :
    List.Perm (sortRoots createdAtKey ascKey [tieR1, tieR2, tieR3])
      [tieR1, tieR2, tieR3] ∧
    (sortRoots createdAtKey ascKey [tieR1, tieR2, tieR3]).Pairwise
      (fun u v => u.createdAt ≤ v.createdAt) := by
  have h := claim_c2_amended createdAtKey ascKey [tieR1, tieR2, tieR3]
  exact ⟨h.1, h.2.2.1 rfl (by decide)⟩

theorem subtreeLevels_parent_some (store : List Comment) :
    ∀ (fuel : Nat) (level : List Comment), (∀ z ∈ level, z.parentID ≠ none) →
      ∀ y ∈ subtreeLevels store fuel level, y.parentID ≠ none := by
  intro fuel
  induction fuel with
  | zero =>
    intro level _ y hy
    simp [subtreeLevels] at hy
  | succ fuel ih =>
    intro level hlev y hy
    rw [subtreeLevels] at hy
    rcases List.mem_append.mp hy with h | h
    · exact hlev y h
    · refine ih _ ?_ y h
      intro z hz
      have hp := (List.mem_filter.mp hz).2
      cases hzp : z.parentID with
      | none => rw [hzp] at hp; simp at hp
      | some _ => simp

/-- C10.  When the requested parent is itself a child record, the recursive
fetch returns only records with a non-null parent id, so the root filter of
`GetTree` (postgres.go:161-163) keeps nothing and the result is the empty
forest: the requested subtree's own root is never emitted
(postgres.go:103-129, 155-164). -/
theorem claim_c10 (store : List Comment) (f : CommentFilter) (hnd : idsNodup store)
    {c : Comment} (hc : c ∈ store) (hcp : c.parentID ≠ none)
    (hp : 1 ≤ f.page) (hs : 1 ≤ f.pageSize) :
    (∀ y ∈ fetchSubtreeRows store c.id, y.parentID ≠ none) ∧
    repoGetTree store (some c.id) f = [] := by
  have hfetch : ∀ y ∈ fetchSubtreeRows store c.id, y.parentID ≠ none := by
    unfold fetchSubtreeRows
    apply subtreeLevels_parent_some
    intro z hz
    obtain ⟨hzs, hzid⟩ := List.mem_filter.mp hz
    have : z = c := id_unique hnd hzs hc (by simpa using hzid)
    exact this ▸ hcp
  refine ⟨hfetch, ?_⟩
  have hroots : (fetchSubtreeRows store c.id).filter (fun z => z.parentID.isNone) = [] := by
    rw [List.filter_eq_nil_iff]
    intro a ha
    have := hfetch a ha
    simp [Option.isNone_iff_eq_none, this]
  show (paginate f.page f.pageSize
      (sortRoots f.sortBy f.order
        ((fetchSubtreeRows store c.id).filter (fun z => z.parentID.isNone)))).map
      (fun r => buildTree (fetchSubtreeRows store c.id)
        (fetchSubtreeRows store c.id).length r) = []
  rw [hroots]
  have hsorted : sortRoots f.sortBy f.order [] = [] :=
    (sortRoots_perm f.sortBy f.order []).eq_nil
  rw [hsorted]
  have hpag : paginate f.page f.pageSize [] = [] := by
    apply paginate_empty_of_start_ge
    simp only [List.length_nil, Int.ofNat_zero]
    exact mul_nonneg (by omega) (by omega)
  rw [hpag]
  rfl

/-- Closed instance of `claim_c10`: requesting the subtree of the child
record 2 of the example store with the default page settings. -/
theorem claim_c10_witness :
    (∀ y ∈ fetchSubtreeRows exStore exChild.id, y.parentID ≠ none) ∧
    repoGetTree exStore (some exChild.id) ⟨some 2, emptyStr, 1, 50, createdAtKey, descKey⟩ = [] := by
  exact claim_c10 exStore ⟨some 2, emptyStr, 1, 50, createdAtKey, descKey⟩ (by decide)
    (show exChild ∈ exStore by decide) (by decide) (by decide) (by decide)

theorem idsNodup_filter {store : List Comment} (hnd : idsNodup store)
    (p : Comment → Bool) : idsNodup (store.filter p) := by
  unfold idsNodup at hnd ⊢
  exact List.Nodup.sublist ((@List.filter_sublist Comment p store).map _) hnd

/-- C8.  `Count` with a search pattern counts the matching records regardless
of the parent argument (the pattern takes priority, postgres.go:534-540); with
only a root id it counts the records whose parent chain reaches that root (the
subtree, postgres.go:548-564); with neither it counts exactly the records with
a null parent id, not the whole table (postgres.go:541-547). -/
theorem claim_c8 (store : List Comment) (hnd : idsNodup store)
    (hterm : chainsTerminate store) :
    (∀ (search : String) (parentID : Option Int), search ≠ emptyStr →
      repoCount store parentID search = (store.filter (matchesPattern search)).length) ∧
    repoCount store none emptyStr = (store.filter (fun c => c.parentID.isNone)).length ∧
    (∀ c ∈ store,
      repoCount store (some c.id) emptyStr =
        (store.filter (fun y => reachesWithin store y c)).length) := by
  refine ⟨?_, ?_, ?_⟩
  · intro search parentID hs
    unfold repoCount
    rw [if_pos hs]
    have hnodup : ((store.filter (matchesPattern search)).map (fun c => c.id)).Nodup :=
      idsNodup_filter hnd (matchesPattern search)
    rw [List.dedup_eq_self.mpr hnodup, List.length_map]
  · unfold repoCount
    rw [if_neg (by simp)]
  · intro c hc
    unfold repoCount
    rw [if_neg (by simp)]
    exact (fetchSubtreeRows_perm hnd hterm hc).length_eq

/-- Closed instance of `claim_c8` on the example store. -/
theorem claim_c8_witness :
    (∀ (search : String) (parentID : Option Int), search ≠ emptyStr →
      repoCount exStore parentID search =
        (exStore.filter (matchesPattern search)).length) ∧
    repoCount exStore none emptyStr =
      (exStore.filter (fun c => c.parentID.isNone)).length ∧
    (∀ c ∈ exStore,
      repoCount exStore (some c.id) emptyStr =
        (exStore.filter (fun y => reachesWithin exStore y c)).length) :=
  claim_c8 exStore (by decide) (by decide)

/-- C6.  `CommentUseCase.Delete` on an existing record succeeds, and the store
transitions in a single step to the filter removing exactly the records whose
parent chain reaches the deleted record (the one atomic recursive `DELETE` of
postgres.go:252-275): afterwards no such record is retrievable by id, while
every record outside the subtree is unchanged and still retrievable. -/
theorem claim_c6 (store : List Comment) (hnd : idsNodup store)
    (_hterm : chainsTerminate store) {r : Comment} (hr : r ∈ store) :
    (ucDelete store r.id).2 = Except.ok () ∧
    (ucDelete store r.id).1 =
      store.filter (fun c => !((subtreeIDs store r.id).contains c.id)) ∧
    (∀ x ∈ store, reachesWithin store x r = true →
      repoGetByID (ucDelete store r.id).1 x.id =
        Except.error DomainError.commentNotFound) ∧
    (∀ x ∈ store, reachesWithin store x r = false →
      x ∈ (ucDelete store r.id).1 ∧
      repoGetByID (ucDelete store r.id).1 x.id = Except.ok (some x)) := by
  have hok : ucDelete store r.id = (repoDelete store r.id, Except.ok ()) := by
    unfold ucDelete repoGetByID
    rw [find_id_of_mem hnd hr]
  have hnd' : idsNodup (repoDelete store r.id) := idsNodup_filter hnd _
  refine ⟨by rw [hok], by rw [hok]; rfl, ?_, ?_⟩
  · intro x hx hreach
    rw [hok]
    have hcont : (subtreeIDs store r.id).contains x.id = true :=
      (subtreeIDs_mem hnd hr hx).mpr hreach
    unfold repoGetByID
    have hnone : (repoDelete store r.id).find? (fun c => c.id = x.id) = none := by
      rw [find_id_eq_none_iff]
      intro c hc hcid
      obtain ⟨hcs, hcp⟩ := List.mem_filter.mp hc
      have hcx : c = x := id_unique hnd hcs hx hcid
      subst hcx
      rw [hcont] at hcp
      simp at hcp
    rw [hnone]
  · intro x hx hreach
    rw [hok]
    have hcont : (subtreeIDs store r.id).contains x.id = false := by
      cases h : (subtreeIDs store r.id).contains x.id with
      | false => rfl
      | true =>
        rw [(subtreeIDs_mem hnd hr hx).mp h] at hreach
        cases hreach
    have hmem : x ∈ repoDelete store r.id := by
      unfold repoDelete
      exact List.mem_filter.mpr ⟨hx, by rw [hcont]; rfl⟩
    refine ⟨hmem, ?_⟩
    unfold repoGetByID
    rw [find_id_of_mem hnd' hmem]

/-- Closed instance of `claim_c6`: deleting the mid-level record 2 of the
example store. -/
theorem claim_c6_witness :
    (ucDelete exStore exChild.id).2 = Except.ok () ∧
    (ucDelete exStore exChild.id).1 =
      exStore.filter (fun c => !((subtreeIDs exStore exChild.id).contains c.id)) ∧
    (∀ x ∈ exStore, reachesWithin exStore x exChild = true →
      repoGetByID (ucDelete exStore exChild.id).1 x.id =
        Except.error DomainError.commentNotFound) ∧
    (∀ x ∈ exStore, reachesWithin exStore x exChild = false →
      x ∈ (ucDelete exStore exChild.id).1 ∧
      repoGetByID (ucDelete exStore exChild.id).1 x.id = Except.ok (some x)) :=
  claim_c6 exStore (by decide) (by decide) (show exChild ∈ exStore by decide)

/-- C7.  `buildTree` with the flat record set and sufficient fuel contains
every record whose parent chain leads to the root exactly once and no other
record: the bounded reachability test coincides with the abstract
parent-chain property on chain-terminating stores, the per-record multiplicity
in the flattened tree is one for reachable records and zero otherwise, and
every tree node comes from the record set (postgres.go:235-249). -/
theorem claim_c7 (store : List Comment) (hnd : idsNodup store)
    (hterm : chainsTerminate store) {r : Comment} (hr : r ∈ store) :
    (∀ x ∈ store, countTree x (buildTree store store.length r) =
      (if reachesWithin store x r = true then 1 else 0)) ∧
    (∀ x ∈ store, (reachesWithin store x r = true ↔ leadsTo store x r)) ∧
    (∀ x, x ∈ flattenTree (buildTree store store.length r) → x ∈ store) := by
  refine ⟨?_, ?_, ?_⟩
  · intro x hx
    exact buildTree_count hnd hterm hx store.length r hr
  · intro x hx
    exact (leadsTo_iff_reachesWithin hterm hx).symm
  · intro x hx
    exact buildTree_flatten_mem hr hx

/-- Closed instance of `claim_c7` on the example store rooted at record 1. -/
theorem claim_c7_witness :
    (∀ x ∈ exStore, countTree x (buildTree exStore exStore.length exRoot) =
      (if reachesWithin exStore x exRoot = true then 1 else 0)) ∧
    (∀ x ∈ exStore, (reachesWithin exStore x exRoot = true ↔ leadsTo exStore x exRoot)) ∧
    (∀ x, x ∈ flattenTree (buildTree exStore exStore.length exRoot) → x ∈ exStore) :=
  claim_c7 exStore (by decide) (by decide) (show exRoot ∈ exStore by decide)

theorem buildTree_root (store : List Comment) (fuel : Nat) (r : Comment) :
    (buildTree store fuel r).root = r := by
  cases fuel <;> rfl

theorem repoSearch_eq {store : List Comment} {q : String} {f : CommentFilter}
    (h : (resolvedRootIDs store q).isEmpty = false) :
    repoSearch store q f =
      (paginate f.page f.pageSize
        (sortRoots (normSortKey f.sortBy) (normOrderKey f.order)
          (store.filter (fun c =>
            c.parentID.isNone && (resolvedRootIDs store q).contains c.id)))).map
        (fun r => buildTree store store.length r) := by
  unfold repoSearch
  rw [if_neg (by simp [h])]

/-- C5.  Search resolution and completeness: every record matching the pattern
has its parent chain walked up to a topmost ancestor that is the root of one
of the returned trees, and every returned tree is rooted at a null-parent
record of the store and contains exactly the records whose chain leads to that
root — in particular all descendants of a resolved root, matching or not
(postgres.go:278-435, 438-462).  The page is assumed wide enough to hold every
resolved root (the claim speaks of the whole returned forest). -/
theorem claim_c5 (store : List Comment) (q : String) (f : CommentFilter)
    (hnd : idsNodup store) (hterm : chainsTerminate store)
    (hpage : f.page = 1)
    (hsize : ((store.filter (fun c =>
      c.parentID.isNone && (resolvedRootIDs store q).contains c.id)).length : Int) ≤
        f.pageSize) :
    (∀ m ∈ store, matchesPattern q m = true →
      ∃ t ∈ repoSearch store q f, ∃ k, iterUp store k m = some t.root) ∧
    (∀ t ∈ repoSearch store q f,
      t.root ∈ store ∧ t.root.parentID = none ∧
      (∀ x ∈ store, countTree x t =
        (if reachesWithin store x t.root = true then 1 else 0))) := by
  by_cases hiE : (resolvedRootIDs store q).isEmpty = true
  · -- no match at all: the forest is empty and no record matches
    have hnomatch : ∀ m ∈ store, matchesPattern q m ≠ true := by
      intro m hm hmt
      have hmem : m ∈ store.filter (matchesPattern q) := List.mem_filter.mpr ⟨hm, hmt⟩
      have : resolvedRootIDs store q ≠ [] := by
        unfold resolvedRootIDs
        intro hc
        rw [List.map_eq_nil_iff] at hc
        rw [hc] at hmem
        cases hmem
      exact this (List.isEmpty_iff.mp hiE)
    have hempty : repoSearch store q f = [] := by
      unfold repoSearch
      rw [if_pos (by simpa using hiE)]
    refine ⟨?_, ?_⟩
    · intro m hm hmt
      exact absurd hmt (hnomatch m hm)
    · intro t ht
      rw [hempty] at ht
      cases ht
  · have hne : (resolvedRootIDs store q).isEmpty = false := by
      cases h : (resolvedRootIDs store q).isEmpty with
      | false => rfl
      | true => exact absurd h hiE
    have hout : repoSearch store q f =
        (paginate f.page f.pageSize
          (sortRoots (normSortKey f.sortBy) (normOrderKey f.order)
            (store.filter (fun c =>
              c.parentID.isNone && (resolvedRootIDs store q).contains c.id)))).map
          (fun r => buildTree store store.length r) := repoSearch_eq hne
    set roots := store.filter (fun c =>
      c.parentID.isNone && (resolvedRootIDs store q).contains c.id) with hroots
    have hsortlen : (sortRoots (normSortKey f.sortBy) (normOrderKey f.order) roots).length =
        roots.length := (sortRoots_perm _ _ roots).length_eq
    have hpag : paginate f.page f.pageSize
        (sortRoots (normSortKey f.sortBy) (normOrderKey f.order) roots) =
        sortRoots (normSortKey f.sortBy) (normOrderKey f.order) roots := by
      rw [hpage]
      apply paginate_all
      rw [hsortlen]
      exact hsize
    rw [hpag] at hout
    have hmem_out : ∀ r, r ∈ roots →
        buildTree store store.length r ∈ repoSearch store q f := by
      intro r hrr
      rw [hout]
      exact List.mem_map.mpr ⟨r, (sortRoots_perm _ _ roots).mem_iff.mpr hrr, rfl⟩
    refine ⟨?_, ?_⟩
    · intro m hm hmt
      have hmf : m ∈ store.filter (matchesPattern q) := List.mem_filter.mpr ⟨hm, hmt⟩
      cases hp : m.parentID with
      | none =>
        -- the match is itself a root and contributes its own id
        have hid : m.id ∈ resolvedRootIDs store q := by
          unfold resolvedRootIDs
          refine List.mem_map.mpr ⟨m, hmf, ?_⟩
          rw [hp]
        have hmr : m ∈ roots := by
          rw [hroots]
          refine List.mem_filter.mpr ⟨hm, ?_⟩
          simp [hp, hid]
        refine ⟨buildTree store store.length m, hmem_out m hmr, 0, ?_⟩
        rw [buildTree_root]
        rfl
      | some pid =>
        obtain ⟨k, r, hrs, hit, hrp, hfr⟩ := findRootComment_spec hnd hterm hm
        have hid : r.id ∈ resolvedRootIDs store q := by
          unfold resolvedRootIDs
          refine List.mem_map.mpr ⟨m, hmf, ?_⟩
          rw [hp, ← hfr]
        have hrr : r ∈ roots := by
          rw [hroots]
          refine List.mem_filter.mpr ⟨hrs, ?_⟩
          simp [hrp, hid]
        refine ⟨buildTree store store.length r, hmem_out r hrr, k, ?_⟩
        rw [buildTree_root]
        exact hit
    · intro t ht
      rw [hout] at ht
      obtain ⟨r, hr_sorted, rfl⟩ := List.mem_map.mp ht
      have hrr : r ∈ roots := (sortRoots_perm _ _ roots).mem_iff.mp hr_sorted
      obtain ⟨hrs, hrp⟩ := List.mem_filter.mp hrr
      have hrp' : r.parentID = none := by
        have := (Bool.and_eq_true _ _).mp hrp
        simpa [Option.isNone_iff_eq_none] using this.1
      rw [buildTree_root]
      refine ⟨hrs, hrp', ?_⟩
      intro x hx
      exact buildTree_count hnd hterm hx store.length r hrs

/-- Closed instance of `claim_c5` on the two-record example: searching
"hello" over root "hello" with child "world" returns the single full thread
rooted at record 1 with record 2 as its child, even though the child does not
match. -/
theorem claim_c5_witness :
    ((∀ m ∈ [exRoot, exChild], matchesPattern helloStr m = true →
      ∃ t ∈ repoSearch [exRoot, exChild] helloStr ⟨none, helloStr, 1, 50, createdAtKey, descKey⟩,
        ∃ k, iterUp [exRoot, exChild] k m = some t.root) ∧
    (∀ t ∈ repoSearch [exRoot, exChild] helloStr ⟨none, helloStr, 1, 50, createdAtKey, descKey⟩,
      t.root ∈ [exRoot, exChild] ∧ t.root.parentID = none ∧
      (∀ x ∈ [exRoot, exChild], countTree x t =
        (if reachesWithin [exRoot, exChild] x t.root = true then 1 else 0)))) ∧
    repoSearch [exRoot, exChild] helloStr ⟨none, helloStr, 1, 50, createdAtKey, descKey⟩ =
      [CommentTree.node exRoot [CommentTree.node exChild []]] := by
  constructor
  · exact claim_c5 [exRoot, exChild] helloStr ⟨none, helloStr, 1, 50, createdAtKey, descKey⟩
      (by decide) (by decide) rfl (by decide)
  · rfl

theorem find_id_perm {store₁ store₂ : List Comment} (hnd : idsNodup store₁)
    (hperm : List.Perm store₂ store₁) (i : Int) :
    store₂.find? (fun c => c.id = i) = store₁.find? (fun c => c.id = i) := by
  cases h1 : store₁.find? (fun c => c.id = i) with
  | none =>
    rw [find_id_eq_none_iff] at h1
    cases h2 : store₂.find? (fun c => c.id = i) with
    | none => rfl
    | some b =>
      obtain ⟨hb, hbid⟩ := find_id_eq_some_iff h2
      exact absurd hbid (h1 b (hperm.mem_iff.mp hb))
  | some a =>
    obtain ⟨ha, haid⟩ := find_id_eq_some_iff h1
    cases h2 : store₂.find? (fun c => c.id = i) with
    | none =>
      rw [find_id_eq_none_iff] at h2
      exact absurd haid (h2 a (hperm.mem_iff.mpr ha))
    | some b =>
      obtain ⟨hb, hbid⟩ := find_id_eq_some_iff h2
      rw [id_unique hnd (hperm.mem_iff.mp hb) ha (by rw [hbid, haid])]

theorem stepUp_perm {store₁ store₂ : List Comment} (hnd : idsNodup store₁)
    (hperm : List.Perm store₂ store₁) (c : Comment) :
    stepUp store₂ c = stepUp store₁ c := by
  unfold stepUp
  cases c.parentID with
  | none => rfl
  | some pid => exact find_id_perm hnd hperm pid

theorem iterUp_perm {store₁ store₂ : List Comment} (hnd : idsNodup store₁)
    (hperm : List.Perm store₂ store₁) (k : Nat) (c : Comment) :
    iterUp store₂ k c = iterUp store₁ k c := by
  induction k generalizing c with
  | zero => rfl
  | succ k ih =>
    show (stepUp store₂ c).bind (iterUp store₂ k) = (stepUp store₁ c).bind (iterUp store₁ k)
    rw [stepUp_perm hnd hperm c]
    cases stepUp store₁ c with
    | none => rfl
    | some p => exact ih p

theorem rootDist_perm {store₁ store₂ : List Comment} (hnd : idsNodup store₁)
    (hperm : List.Perm store₂ store₁) (fuel : Nat) (c : Comment) :
    rootDist store₂ fuel c = rootDist store₁ fuel c := by
  induction fuel generalizing c with
  | zero => rfl
  | succ fuel ih =>
    cases hp : c.parentID with
    | none => simp only [rootDist, hp]
    | some pid =>
      have hfe := find_id_perm hnd hperm pid
      cases hf : store₁.find? (fun x => x.id = pid) with
      | none => simp only [rootDist, hp, hfe, hf]
      | some p =>
        simp only [rootDist, hp, hfe, hf]
        rw [ih p]

theorem chainsTerminate_perm {store₁ store₂ : List Comment} (hnd : idsNodup store₁)
    (hperm : List.Perm store₂ store₁) (hterm : chainsTerminate store₁) :
    chainsTerminate store₂ := by
  intro c hc
  rw [rootDist_perm hnd hperm, hperm.length_eq]
  exact hterm c (hperm.mem_iff.mp hc)

theorem idsNodup_perm {store₁ store₂ : List Comment} (hnd : idsNodup store₁)
    (hperm : List.Perm store₂ store₁) : idsNodup store₂ := by
  unfold idsNodup at hnd ⊢
  exact (hperm.map (fun c => c.id)).nodup_iff.mpr hnd

theorem reachIn_perm {store₁ store₂ : List Comment} (hnd : idsNodup store₁)
    (hperm : List.Perm store₂ store₁) (fuel : Nat) (x r : Comment) :
    reachIn store₂ fuel x r = reachIn store₁ fuel x r := by
  unfold reachIn
  congr 1
  funext k
  rw [iterUp_perm hnd hperm k x]

theorem exchangeSort_eq_of_perm (f : Comment → Int) {cmp : Comment → Comment → Bool}
    (hcmp : ∀ u v, cmp u v = true ↔ f v < f u) {l₁ l₂ : List Comment}
    (hperm : List.Perm l₂ l₁)
    (hne : l₁.Pairwise (fun u v => f u ≠ f v)) :
    exchangeSort cmp l₂ = exchangeSort cmp l₁ := by
  haveI : IsAntisymm Comment (fun u v => f u < f v) :=
    ⟨fun a b h1 h2 => absurd (lt_trans h1 h2) (lt_irrefl _)⟩
  have hp₂ : List.Perm (exchangeSort cmp l₂) (exchangeSort cmp l₁) :=
    ((exchangeSort_perm cmp l₂).trans hperm).trans (exchangeSort_perm cmp l₁).symm
  have hne₁ : (exchangeSort cmp l₁).Pairwise (fun u v => f u ≠ f v) :=
    ((exchangeSort_perm cmp l₁).pairwise_iff (fun h => h.symm)).mpr hne
  have hne₂ : (exchangeSort cmp l₂).Pairwise (fun u v => f u ≠ f v) :=
    (hp₂.pairwise_iff (fun h => h.symm)).mpr hne₁
  have hs₁ : (exchangeSort cmp l₁).Pairwise (fun u v => f u < f v) :=
    ((exchangeSort_sorted f hcmp l₁).and hne₁).imp
      (fun h => lt_of_le_of_ne h.1 h.2)
  have hs₂ : (exchangeSort cmp l₂).Pairwise (fun u v => f u < f v) :=
    ((exchangeSort_sorted f hcmp l₂).and hne₂).imp
      (fun h => lt_of_le_of_ne h.1 h.2)
  exact List.eq_of_perm_of_sorted hp₂ hs₂ hs₁

theorem sortRoots_eq_of_perm {l₁ l₂ : List Comment} (hperm : List.Perm l₂ l₁)
    (sortBy order : String)
    (hkey : sortBy = createdAtKey ∨ sortBy = updatedAtKey)
    (hdtc : l₁.Pairwise (fun u v => u.createdAt ≠ v.createdAt))
    (hdtu : l₁.Pairwise (fun u v => u.updatedAt ≠ v.updatedAt)) :
    sortRoots sortBy order l₂ = sortRoots sortBy order l₁ := by
  rcases hkey with rfl | rfl
  · unfold sortRoots
    rw [if_pos rfl, if_pos rfl]
    by_cases ho : order = descKey
    · rw [if_pos ho, if_pos ho]
      refine exchangeSort_eq_of_perm (fun u => -u.createdAt)
        (by intro u v; simp) hperm (hdtc.imp ?_)
      intro u v h hc
      have hc' : -u.createdAt = -v.createdAt := hc
      exact h (by omega)
    · rw [if_neg ho, if_neg ho]
      exact exchangeSort_eq_of_perm (fun u => u.createdAt)
        (by intro u v; simp) hperm hdtc
  · have hne : updatedAtKey ≠ createdAtKey := by decide
    unfold sortRoots
    rw [if_neg hne, if_neg hne, if_pos rfl, if_pos rfl]
    by_cases ho : order = descKey
    · rw [if_pos ho, if_pos ho]
      refine exchangeSort_eq_of_perm (fun u => -u.updatedAt)
        (by intro u v; simp) hperm (hdtu.imp ?_)
      intro u v h hc
      have hc' : -u.updatedAt = -v.updatedAt := hc
      exact h (by omega)
    · rw [if_neg ho, if_neg ho]
      exact exchangeSort_eq_of_perm (fun u => u.updatedAt)
        (by intro u v; simp) hperm hdtu

theorem paginate_subset {l : List Comment} {p s : Int} (hp : 1 ≤ p) (hs : 1 ≤ s) :
    ∀ y ∈ paginate p s l, y ∈ l := by
  intro y hy
  rw [paginate_eq_drop_take l p s hp hs] at hy
  exact List.mem_of_mem_drop (List.mem_of_mem_take hy)

/-- A second child of the example root, sibling of `exChild`. -/
def sibC : Comment := ⟨3, some 1, xStr, 30, 30⟩

/-- The ids of a tree node's immediate children, in order. -/
def childRootIDs (t : CommentTree) : List Int :=
  t.childList.map (fun s => s.root.id)

/-- C9 counterexample.  The two stores hold the same records — they are
permutations of one another, modelling the same table read back in two
different row (or Go map iteration) orders — and the filter is identical, yet
`GetForest` returns the root's children in a different order: sibling order is
inherited from the iteration order of the `allComments` map
(postgres.go:241-246), which Go randomizes between calls, so two reads of an
unchanged store need not return identically ordered children. -/
theorem claim_c9_counterexample :
    List.Perm [exRoot, sibC, exChild] [exRoot, exChild, sibC] ∧
    (ucGetTree [exRoot, exChild, sibC]
        ⟨none, emptyStr, 1, 50, createdAtKey, descKey⟩).map childRootIDs ≠
      (ucGetTree [exRoot, sibC, exChild]
        ⟨none, emptyStr, 1, 50, createdAtKey, descKey⟩).map childRootIDs := by
  constructor
  · decide
  · decide

theorem findRootComment_perm {store₁ store₂ : List Comment} (hnd : idsNodup store₁)
    (hperm : List.Perm store₂ store₁) (cid : Int) :
    findRootComment store₂ cid = findRootComment store₁ cid := by
  unfold findRootComment
  rw [find_id_perm hnd hperm cid]
  cases hf : store₁.find? (fun c => c.id = cid) with
  | none => rfl
  | some c =>
    show (match rootDist store₂ store₂.length c with
          | none => cid
          | some kr => kr.2.id) =
        (match rootDist store₁ store₁.length c with
          | none => cid
          | some kr => kr.2.id)
    rw [hperm.length_eq, rootDist_perm hnd hperm]

theorem contains_eq_of_perm {l₁ l₂ : List Int} (h : List.Perm l₂ l₁) (i : Int) :
    l₂.contains i = l₁.contains i := by
  apply Bool.eq_iff_iff.mpr
  constructor
  · intro hc
    have hm : i ∈ l₂ := by simpa using hc
    simpa using h.mem_iff.mp hm
  · intro hc
    have hm : i ∈ l₁ := by simpa using hc
    simpa using h.mem_iff.mpr hm

theorem resolvedRootIDs_perm {store₁ store₂ : List Comment} (hnd : idsNodup store₁)
    (hperm : List.Perm store₂ store₁) (q : String) :
    List.Perm (resolvedRootIDs store₂ q) (resolvedRootIDs store₁ q) := by
  unfold resolvedRootIDs
  have hg : ∀ m ∈ store₂.filter (matchesPattern q),
      (match m.parentID with
        | none => m.id
        | some _ => findRootComment store₂ m.id) =
      (match m.parentID with
        | none => m.id
        | some _ => findRootComment store₁ m.id) := by
    intro m _
    cases m.parentID with
    | none => rfl
    | some _ => exact findRootComment_perm hnd hperm m.id
  rw [List.map_congr_left hg]
  exact (hperm.filter _).map _

theorem searchRoots_perm {store₁ store₂ : List Comment} (hnd : idsNodup store₁)
    (hperm : List.Perm store₂ store₁) (q : String) :
    List.Perm
      (store₂.filter (fun c =>
        c.parentID.isNone && (resolvedRootIDs store₂ q).contains c.id))
      (store₁.filter (fun c =>
        c.parentID.isNone && (resolvedRootIDs store₁ q).contains c.id)) := by
  have hpt : ∀ c ∈ store₂,
      (c.parentID.isNone && (resolvedRootIDs store₂ q).contains c.id) =
      (c.parentID.isNone && (resolvedRootIDs store₁ q).contains c.id) := by
    intro c _
    rw [contains_eq_of_perm (resolvedRootIDs_perm hnd hperm q) c.id]
  rw [List.filter_congr hpt]
  exact hperm.filter _

theorem normSortKey_valid (s : String) :
    normSortKey s = createdAtKey ∨ normSortKey s = updatedAtKey := by
  unfold normSortKey
  by_cases h : s ≠ createdAtKey ∧ s ≠ updatedAtKey
  · rw [if_pos h]
    exact Or.inl rfl
  · rw [if_neg h]
    rcases not_and_or.mp h with h' | h'
    · exact Or.inl (not_not.mp h')
    · exact Or.inr (not_not.mp h')

theorem subtreeLevels_nil (store : List Comment) :
    ∀ fuel : Nat, subtreeLevels store fuel [] = [] := by
  intro fuel
  induction fuel with
  | zero => rfl
  | succ fuel ih =>
    rw [subtreeLevels]
    have hch : childrenOf store (([] : List Comment).map (fun c => c.id)) = [] := by
      unfold childrenOf
      rw [List.filter_eq_nil_iff]
      intro a _
      cases a.parentID with
      | none => simp
      | some p => simp
    rw [List.nil_append, hch, ih]

theorem filterMap_length_eq {l : List Nat} {f : Nat → Option Comment}
    (h : ∀ a ∈ l, (f a).isSome) : (l.filterMap f).length = l.length := by
  induction l with
  | nil => rfl
  | cons a t ih =>
    rw [List.filterMap_cons]
    cases hf : f a with
    | none =>
      have := h a (List.mem_cons_self a t)
      rw [hf] at this
      cases this
    | some b =>
      rw [List.length_cons, ih (fun a ha => h a (List.mem_cons_of_mem _ ha))]
      rfl

theorem reach_lt_length_of_closed {store : List Comment} (hterm : chainsTerminate store)
    {x c : Comment} (hx : x ∈ store) {k : Nat} (hreach : iterUp store k x = some c)
    {S : List Comment}
    (hclosed : ∀ i y, i ≤ k → iterUp store i x = some y → y ∈ S) :
    k < S.length := by
  have hLlen : ((List.range (k + 1)).filterMap (fun i => iterUp store i x)).length = k + 1 := by
    rw [filterMap_length_eq, List.length_range]
    intro i hi
    have hik : i ≤ k := by
      have := List.mem_range.mp hi
      omega
    obtain ⟨j, rfl⟩ : ∃ j, k = i + j := ⟨k - i, by omega⟩
    rw [iterUp_add] at hreach
    cases hiu : iterUp store i x with
    | none =>
      rw [hiu] at hreach
      cases hreach
    | some y => simp [hiu]
  have hLnd : ((List.range (k + 1)).filterMap (fun i => iterUp store i x)).Nodup := by
    apply List.Nodup.filterMap
    · intro a a' b hb hb'
      exact reach_index_unique hterm hx hb hb'
    · exact List.nodup_range _
  have hLsub : ((List.range (k + 1)).filterMap (fun i => iterUp store i x)) ⊆ S := by
    intro y hy
    obtain ⟨i, hi, hfy⟩ := List.mem_filterMap.mp hy
    exact hclosed i y (by have := List.mem_range.mp hi; omega) hfy
  have := (List.subperm_of_subset hLnd hLsub).length_le
  omega

theorem fetchSubtreeRows_idsNodup {store : List Comment} (hnd : idsNodup store)
    (hterm : chainsTerminate store) {c : Comment} (hc : c ∈ store) :
    idsNodup (fetchSubtreeRows store c.id) := by
  unfold idsNodup
  apply List.Nodup.map_on
  · intro x hxF y hyF hxy
    exact id_unique hnd (fetchSubtreeRows_subset store _ x hxF)
      (fetchSubtreeRows_subset store _ y hyF) hxy
  · exact fetchSubtreeRows_nodup hnd hterm hc

theorem nodup_all_eq_singleton {l : List Comment} (hnd : l.Nodup) {c : Comment}
    (hc : c ∈ l) (hall : ∀ y ∈ l, y = c) : l = [c] := by
  cases l with
  | nil => cases hc
  | cons a t =>
    have ha : a = c := hall a (List.mem_cons_self a t)
    subst ha
    have ht : t = [] := by
      cases t with
      | nil => rfl
      | cons b t' =>
        have hb : b = a := hall b (by simp)
        subst hb
        exact absurd (by simp) (List.nodup_cons.mp hnd).1
    rw [ht]

theorem mem_fetchSubtreeRows_self {store : List Comment} (hnd : idsNodup store)
    {c : Comment} (hc : c ∈ store) : c ∈ fetchSubtreeRows store c.id := by
  apply (fetchSubtreeRows_mem hnd hc hc).mpr
  exact reachIn_iff.mpr ⟨0, by omega, rfl⟩

theorem fetch_roots_singleton {store : List Comment} (hnd : idsNodup store)
    (hterm : chainsTerminate store) {c : Comment} (hc : c ∈ store)
    (hroot : c.parentID = none) :
    (fetchSubtreeRows store c.id).filter (fun z => z.parentID.isNone) = [c] := by
  apply nodup_all_eq_singleton ((fetchSubtreeRows_nodup hnd hterm hc).filter _)
  · exact List.mem_filter.mpr ⟨mem_fetchSubtreeRows_self hnd hc, by simp [hroot]⟩
  · intro y hy
    obtain ⟨hyF, hyN⟩ := List.mem_filter.mp hy
    have hyN' : y.parentID = none := by simpa [Option.isNone_iff_eq_none] using hyN
    have hys : y ∈ store := fetchSubtreeRows_subset store _ y hyF
    have hreach := (fetchSubtreeRows_mem hnd hc hys).mp hyF
    obtain ⟨k, hk, hit⟩ := reachIn_iff.mp hreach
    cases k with
    | zero => simpa [iterUp] using hit
    | succ k =>
      exfalso
      have hnone : iterUp store (k + 1) y = none := by
        show (stepUp store y).bind (iterUp store k) = none
        unfold stepUp
        rw [hyN']
        rfl
      rw [hnone] at hit
      cases hit

theorem fetch_roots_nil {store : List Comment} (hnd : idsNodup store)
    {c : Comment} (hc : c ∈ store) (hcp : c.parentID ≠ none) :
    (fetchSubtreeRows store c.id).filter (fun z => z.parentID.isNone) = [] := by
  rw [List.filter_eq_nil_iff]
  intro a ha
  have hap : a.parentID ≠ none := by
    refine subtreeLevels_parent_some store _ _ ?_ a ha
    intro z hz
    obtain ⟨hzs, hzid⟩ := List.mem_filter.mp hz
    have : z = c := id_unique hnd hzs hc (by simpa using hzid)
    exact this ▸ hcp
  simp [Option.isNone_iff_eq_none, hap]

theorem reachesWithin_perm {store₁ store₂ : List Comment} (hnd : idsNodup store₁)
    (hperm : List.Perm store₂ store₁) (x r : Comment) :
    reachesWithin store₂ x r = reachesWithin store₁ x r := by
  show reachIn store₂ store₂.length x r = reachIn store₁ store₁.length x r
  rw [hperm.length_eq, reachIn_perm hnd hperm]

theorem fetchSubtreeRows_perm_store {store₁ store₂ : List Comment} (hnd : idsNodup store₁)
    (hterm : chainsTerminate store₁) (hperm : List.Perm store₂ store₁)
    {c : Comment} (hc : c ∈ store₁) :
    List.Perm (fetchSubtreeRows store₂ c.id) (fetchSubtreeRows store₁ c.id) := by
  have hnd₂ : idsNodup store₂ := idsNodup_perm hnd hperm
  have hterm₂ : chainsTerminate store₂ := chainsTerminate_perm hnd hperm hterm
  have hc₂ : c ∈ store₂ := hperm.mem_iff.mpr hc
  apply (List.perm_ext_iff_of_nodup (fetchSubtreeRows_nodup hnd₂ hterm₂ hc₂)
    (fetchSubtreeRows_nodup hnd hterm hc)).mpr
  intro y
  constructor
  · intro hy
    have hys₂ : y ∈ store₂ := fetchSubtreeRows_subset store₂ _ y hy
    have hys₁ : y ∈ store₁ := hperm.mem_iff.mp hys₂
    apply (fetchSubtreeRows_mem hnd hc hys₁).mpr
    rw [← reachesWithin_perm hnd hperm]
    exact (fetchSubtreeRows_mem hnd₂ hc₂ hys₂).mp hy
  · intro hy
    have hys₁ : y ∈ store₁ := fetchSubtreeRows_subset store₁ _ y hy
    have hys₂ : y ∈ store₂ := hperm.mem_iff.mpr hys₁
    apply (fetchSubtreeRows_mem hnd₂ hc₂ hys₂).mpr
    rw [reachesWithin_perm hnd hperm]
    exact (fetchSubtreeRows_mem hnd hc hys₁).mp hy

theorem rootDist_succ_step {store : List Comment} {x p : Comment} {pid : Int}
    (hp : x.parentID = some pid)
    (hfind : store.find? (fun z => z.id = pid) = some p) (fuel : Nat) :
    rootDist store (fuel + 1) x =
      (rootDist store fuel p).map (fun kr => (kr.1 + 1, kr.2)) := by
  conv_lhs => rw [rootDist]
  rw [hp]
  show (match store.find? (fun z => z.id = pid) with
        | none => none
        | some p => (rootDist store fuel p).map (fun kr => (kr.1 + 1, kr.2))) =
      (rootDist store fuel p).map (fun kr => (kr.1 + 1, kr.2))
  rw [hfind]

theorem fetchSubtreeRows_chainsTerminate {store : List Comment} (hnd : idsNodup store)
    (hterm : chainsTerminate store) {c : Comment} (hc : c ∈ store)
    (hroot : c.parentID = none) :
    chainsTerminate (fetchSubtreeRows store c.id) := by
  have hFnd : idsNodup (fetchSubtreeRows store c.id) :=
    fetchSubtreeRows_idsNodup hnd hterm hc
  have main : ∀ (k : Nat) (x : Comment), x ∈ fetchSubtreeRows store c.id →
      iterUp store k x = some c →
      (rootDist (fetchSubtreeRows store c.id) (k + 1) x).isSome := by
    intro k
    induction k with
    | zero =>
      intro x _ hit
      have hxc : x = c := by simpa [iterUp] using hit
      subst hxc
      simp [rootDist, hroot]
    | succ k ih =>
      intro x hxF hit
      cases hp : x.parentID with
      | none =>
        exfalso
        have hnone : iterUp store (k + 1) x = none := by
          show (stepUp store x).bind (iterUp store k) = none
          unfold stepUp
          rw [hp]
          rfl
        rw [hnone] at hit
        cases hit
      | some pid =>
        have hit' : (stepUp store x).bind (iterUp store k) = some c := hit
        cases hs : stepUp store x with
        | none =>
          rw [hs] at hit'
          cases hit'
        | some p =>
          rw [hs] at hit'
          have hpk : iterUp store k p = some c := by simpa using hit'
          have hps : p ∈ store := stepUp_mem hs
          have hpF : p ∈ fetchSubtreeRows store c.id := by
            apply (fetchSubtreeRows_mem hnd hc hps).mpr
            exact reachIn_iff.mpr
              ⟨k, by have := reach_index_lt hterm hps hpk; omega, hpk⟩
          have hpid : p.id = pid := by
            unfold stepUp at hs
            rw [hp] at hs
            exact (find_id_eq_some_iff hs).2
          have hfindF : (fetchSubtreeRows store c.id).find? (fun z => z.id = pid) = some p := by
            rw [← hpid]
            exact find_id_of_mem hFnd hpF
          have hihp := ih p hpF hpk
          cases hrd : rootDist (fetchSubtreeRows store c.id) (k + 1) p with
          | none =>
            rw [hrd] at hihp
            cases hihp
          | some w =>
            rw [rootDist_succ_step hp hfindF (k + 1), hrd]
            simp
  intro x hxF
  have hxs : x ∈ store := fetchSubtreeRows_subset store _ x hxF
  have hreach := (fetchSubtreeRows_mem hnd hc hxs).mp hxF
  obtain ⟨k, hk, hit⟩ := reachIn_iff.mp hreach
  have hsome := main k x hxF hit
  have hbound : k < (fetchSubtreeRows store c.id).length := by
    apply reach_lt_length_of_closed hterm hxs hit
    intro i y hik hiy
    have hys : y ∈ store := iterUp_mem hxs hiy
    obtain ⟨j, rfl⟩ : ∃ j, k = i + j := ⟨k - i, by omega⟩
    rw [iterUp_add, hiy] at hit
    have hyj : iterUp store j y = some c := by simpa using hit
    exact (fetchSubtreeRows_mem hnd hc hys).mpr
      (reachIn_iff.mpr ⟨j, by have := reach_index_lt hterm hys hyj; omega, hyj⟩)
  obtain ⟨v, hv⟩ := Option.isSome_iff_exists.mp hsome
  exact Option.isSome_iff_exists.mpr ⟨v, rootDist_mono hv (by omega)⟩

theorem forest_maps_eq {S₁ S₂ : List Comment} (hnd : idsNodup S₁)
    (hterm : chainsTerminate S₁) (hperm : List.Perm S₂ S₁)
    {P : List Comment} (hP : ∀ r ∈ P, r ∈ S₁) :
    (P.map (fun r => buildTree S₁ S₁.length r)).map CommentTree.root =
      (P.map (fun r => buildTree S₂ S₂.length r)).map CommentTree.root ∧
    ∀ x : Comment, (P.map (fun r => buildTree S₁ S₁.length r)).map (countTree x) =
      (P.map (fun r => buildTree S₂ S₂.length r)).map (countTree x) := by
  constructor
  · rw [List.map_map, List.map_map]
    apply List.map_congr_left
    intro r _
    show (buildTree S₁ S₁.length r).root = (buildTree S₂ S₂.length r).root
    rw [buildTree_root, buildTree_root]
  · intro x
    rw [List.map_map, List.map_map]
    apply List.map_congr_left
    intro r hr
    have hr₁ : r ∈ S₁ := hP r hr
    have hr₂ : r ∈ S₂ := hperm.mem_iff.mpr hr₁
    show countTree x (buildTree S₁ S₁.length r) = countTree x (buildTree S₂ S₂.length r)
    by_cases hx : x ∈ S₁
    · have h₁ := buildTree_count hnd hterm hx S₁.length r hr₁
      have h₂ := buildTree_count (idsNodup_perm hnd hperm)
        (chainsTerminate_perm hnd hperm hterm) (hperm.mem_iff.mpr hx) S₂.length r hr₂
      unfold countTree
      rw [h₁, h₂, hperm.length_eq, reachIn_perm hnd hperm]
    · unfold countTree
      rw [List.count_eq_zero.mpr (fun hm => hx (buildTree_flatten_mem hr₁ hm)),
        List.count_eq_zero.mpr
          (fun hm => hx (hperm.mem_iff.mp (buildTree_flatten_mem hr₂ hm)))]

theorem repoSearch_maps_eq (store₁ store₂ : List Comment) (g : CommentFilter) (q : String)
    (hperm : List.Perm store₂ store₁) (hnd : idsNodup store₁) (hterm : chainsTerminate store₁)
    (hpg : 1 ≤ g.page) (hps : 1 ≤ g.pageSize)
    (hdtc : (store₁.filter (fun c => c.parentID.isNone)).Pairwise
      (fun u v => u.createdAt ≠ v.createdAt))
    (hdtu : (store₁.filter (fun c => c.parentID.isNone)).Pairwise
      (fun u v => u.updatedAt ≠ v.updatedAt)) :
    (repoSearch store₁ q g).map CommentTree.root =
      (repoSearch store₂ q g).map CommentTree.root ∧
    ∀ x : Comment, (repoSearch store₁ q g).map (countTree x) =
      (repoSearch store₂ q g).map (countTree x) := by
  by_cases hiE : (resolvedRootIDs store₁ q).isEmpty = true
  · have h1 : repoSearch store₁ q g = [] := by
      unfold repoSearch
      rw [if_pos (by simpa using hiE)]
    have hiE₂ : (resolvedRootIDs store₂ q).isEmpty = true := by
      rw [List.isEmpty_iff] at hiE ⊢
      exact (hiE ▸ resolvedRootIDs_perm hnd hperm q).eq_nil
    have h2 : repoSearch store₂ q g = [] := by
      unfold repoSearch
      rw [if_pos (by simpa using hiE₂)]
    rw [h1, h2]
    exact ⟨rfl, fun x => rfl⟩
  · have hne₁ : (resolvedRootIDs store₁ q).isEmpty = false := Bool.eq_false_iff.mpr hiE
    have hne₂ : (resolvedRootIDs store₂ q).isEmpty = false := by
      apply Bool.eq_false_iff.mpr
      intro hc
      apply hiE
      rw [List.isEmpty_iff] at hc ⊢
      exact ((resolvedRootIDs_perm hnd hperm q).symm.trans (by rw [hc])).eq_nil
    have hout₁ : repoSearch store₁ q g =
        (paginate g.page g.pageSize
          (sortRoots (normSortKey g.sortBy) (normOrderKey g.order)
            (store₁.filter (fun c =>
              c.parentID.isNone && (resolvedRootIDs store₁ q).contains c.id)))).map
          (fun r => buildTree store₁ store₁.length r) := repoSearch_eq hne₁
    have hout₂ : repoSearch store₂ q g =
        (paginate g.page g.pageSize
          (sortRoots (normSortKey g.sortBy) (normOrderKey g.order)
            (store₂.filter (fun c =>
              c.parentID.isNone && (resolvedRootIDs store₂ q).contains c.id)))).map
          (fun r => buildTree store₂ store₂.length r) := repoSearch_eq hne₂
    have hrp := searchRoots_perm hnd hperm q
    have hsub : List.Sublist
        (store₁.filter (fun c =>
          c.parentID.isNone && (resolvedRootIDs store₁ q).contains c.id))
        (store₁.filter (fun c => c.parentID.isNone)) := by
      rw [← List.filter_filter]
      exact List.Sublist.filter _ (List.filter_sublist store₁)
    have hsorted := sortRoots_eq_of_perm hrp (normSortKey g.sortBy) (normOrderKey g.order)
      (normSortKey_valid g.sortBy) (List.Pairwise.sublist hsub hdtc)
      (List.Pairwise.sublist hsub hdtu)
    rw [hout₁, hout₂, hsorted]
    apply forest_maps_eq hnd hterm hperm
    intro r hr
    have h1 := paginate_subset hpg hps r hr
    have h2 := (sortRoots_perm _ _ _).mem_iff.mp h1
    exact (List.mem_filter.mp h2).1

theorem repoGetTreeForest_maps_eq (store₁ store₂ : List Comment) (g : CommentFilter)
    (hperm : List.Perm store₂ store₁) (hnd : idsNodup store₁) (hterm : chainsTerminate store₁)
    (hpg : 1 ≤ g.page) (hps : 1 ≤ g.pageSize)
    (hkey : g.sortBy = createdAtKey ∨ g.sortBy = updatedAtKey)
    (hdtc : (store₁.filter (fun c => c.parentID.isNone)).Pairwise
      (fun u v => u.createdAt ≠ v.createdAt))
    (hdtu : (store₁.filter (fun c => c.parentID.isNone)).Pairwise
      (fun u v => u.updatedAt ≠ v.updatedAt)) :
    (repoGetTree store₁ none g).map CommentTree.root =
      (repoGetTree store₂ none g).map CommentTree.root ∧
    ∀ x : Comment, (repoGetTree store₁ none g).map (countTree x) =
      (repoGetTree store₂ none g).map (countTree x) := by
  have hrg : ∀ store : List Comment, repoGetTree store none g =
      (paginate g.page g.pageSize
        (sortRoots g.sortBy g.order (store.filter (fun c => c.parentID.isNone)))).map
        (fun r => buildTree store store.length r) := fun store => rfl
  have hsorted := sortRoots_eq_of_perm (hperm.filter _) g.sortBy g.order hkey hdtc hdtu
  rw [hrg store₁, hrg store₂, hsorted]
  apply forest_maps_eq hnd hterm hperm
  intro r hr
  have h1 := paginate_subset hpg hps r hr
  have h2 := (sortRoots_perm _ _ _).mem_iff.mp h1
  exact (List.mem_filter.mp h2).1

theorem repoGetTreeSub_maps_eq (store₁ store₂ : List Comment) (g : CommentFilter) (pid : Int)
    (hperm : List.Perm store₂ store₁) (hnd : idsNodup store₁) (hterm : chainsTerminate store₁)
    (hpg : 1 ≤ g.page) (hps : 1 ≤ g.pageSize) :
    (repoGetTree store₁ (some pid) g).map CommentTree.root =
      (repoGetTree store₂ (some pid) g).map CommentTree.root ∧
    ∀ x : Comment, (repoGetTree store₁ (some pid) g).map (countTree x) =
      (repoGetTree store₂ (some pid) g).map (countTree x) := by
  have hrg : ∀ store : List Comment, repoGetTree store (some pid) g =
      (paginate g.page g.pageSize
        (sortRoots g.sortBy g.order
          ((fetchSubtreeRows store pid).filter (fun c => c.parentID.isNone)))).map
        (fun r => buildTree (fetchSubtreeRows store pid)
          (fetchSubtreeRows store pid).length r) := fun store => rfl
  cases hfind : store₁.find? (fun z => z.id = pid) with
  | none =>
    have hno₁ : ∀ y ∈ store₁, y.id ≠ pid := find_id_eq_none_iff.mp hfind
    have hnil : ∀ store : List Comment, (∀ y ∈ store, y.id ≠ pid) →
        fetchSubtreeRows store pid = [] := by
      intro store hno
      unfold fetchSubtreeRows
      have h0 : store.filter (fun c => c.id = pid) = [] := by
        rw [List.filter_eq_nil_iff]
        intro a ha
        simpa using hno a ha
      rw [h0, subtreeLevels_nil]
    have hF₁ : fetchSubtreeRows store₁ pid = [] := hnil store₁ hno₁
    have hF₂ : fetchSubtreeRows store₂ pid = [] :=
      hnil store₂ (fun y hy => hno₁ y (hperm.mem_iff.mp hy))
    rw [hrg store₁, hrg store₂, hF₁, hF₂]
    exact ⟨rfl, fun x => rfl⟩
  | some c =>
    obtain ⟨hcs, hcid⟩ := find_id_eq_some_iff hfind
    subst hcid
    have hnd₂ : idsNodup store₂ := idsNodup_perm hnd hperm
    have hterm₂ : chainsTerminate store₂ := chainsTerminate_perm hnd hperm hterm
    have hcs₂ : c ∈ store₂ := hperm.mem_iff.mpr hcs
    cases hcp : c.parentID with
    | some _ =>
      have hcp' : c.parentID ≠ none := by
        rw [hcp]
        simp
      have hr₁ := fetch_roots_nil hnd hcs hcp'
      have hr₂ := fetch_roots_nil hnd₂ hcs₂ hcp'
      have hs0 : sortRoots g.sortBy g.order ([] : List Comment) = [] :=
        (sortRoots_perm _ _ _).eq_nil
      have hp0 : paginate g.page g.pageSize ([] : List Comment) = [] := by
        apply paginate_empty_of_start_ge
        simp only [List.length_nil, Nat.cast_zero]
        exact mul_nonneg (by omega) (by omega)
      rw [hrg store₁, hrg store₂, hr₁, hr₂, hs0, hp0]
      exact ⟨rfl, fun x => rfl⟩
    | none =>
      have hr₁ := fetch_roots_singleton hnd hterm hcs hcp
      have hr₂ := fetch_roots_singleton hnd₂ hterm₂ hcs₂ hcp
      rw [hrg store₁, hrg store₂, hr₁, hr₂]
      apply forest_maps_eq (fetchSubtreeRows_idsNodup hnd hterm hcs)
        (fetchSubtreeRows_chainsTerminate hnd hterm hcs hcp)
        (fetchSubtreeRows_perm_store hnd hterm hperm hcs)
      intro r hr
      have h1 := paginate_subset hpg hps r hr
      have h2 := (sortRoots_perm _ _ _).mem_iff.mp h1
      have hrc : r = c := by simpa using h2
      rw [hrc]
      exact mem_fetchSubtreeRows_self hnd hcs

/-- C9 amended.  Two `GetForest` reads of the same unchanged store (two
permutations of the same record list, i.e. two row or map iteration orders)
with identical filters return forests with the same roots in the same order
and, position by position, trees containing exactly the same records with the
same multiplicities — the results are identical up to the order of sibling
children, which the code leaves to map iteration order.  All three read paths
are covered: the full forest, the search dispatch, and the subtree dispatch.
The filter's sort key ranges over the spec's domain (creation time,
modification time, or unset), and the root sort keys are assumed pairwise
distinct, since the unstable exchange sort may additionally reorder tied roots
(see C2). -/
theorem claim_c9_amended (store₁ store₂ : List Comment) (f : CommentFilter)
    (hperm : List.Perm store₂ store₁)
    (hnd : idsNodup store₁) (hterm : chainsTerminate store₁)
    (hkey : f.sortBy = emptyStr ∨ f.sortBy = createdAtKey ∨ f.sortBy = updatedAtKey)
    (hdtc : (store₁.filter (fun c => c.parentID.isNone)).Pairwise
      (fun u v => u.createdAt ≠ v.createdAt))
    (hdtu : (store₁.filter (fun c => c.parentID.isNone)).Pairwise
      (fun u v => u.updatedAt ≠ v.updatedAt)) :
    (ucGetTree store₁ f).map CommentTree.root =
      (ucGetTree store₂ f).map CommentTree.root ∧
    ∀ x : Comment, (ucGetTree store₁ f).map (countTree x) =
      (ucGetTree store₂ f).map (countTree x) := by
  have hpg : 1 ≤ (normalizeFilter f).page := by
    show 1 ≤ (if f.page ≤ 0 then 1 else f.page)
    by_cases h : f.page ≤ 0
    · rw [if_pos h]
    · rw [if_neg h]
      omega
  have hps : 1 ≤ (normalizeFilter f).pageSize := by
    show 1 ≤ (if f.pageSize ≤ 0 then 50 else f.pageSize)
    by_cases h : f.pageSize ≤ 0
    · rw [if_pos h]
      omega
    · rw [if_neg h]
      omega
  by_cases hse : (normalizeFilter f).search = emptyStr
  · have huc : ∀ store : List Comment, ucGetTree store f =
        repoGetTree store (normalizeFilter f).parentID (normalizeFilter f) := by
      intro store
      show (if (normalizeFilter f).search ≠ emptyStr
        then repoSearch store (normalizeFilter f).search (normalizeFilter f)
        else repoGetTree store (normalizeFilter f).parentID (normalizeFilter f)) = _
      rw [if_neg (by simp [hse])]
    cases hpid : (normalizeFilter f).parentID with
    | none =>
      have hkey' : (normalizeFilter f).sortBy = createdAtKey ∨
          (normalizeFilter f).sortBy = updatedAtKey := by
        show (if f.sortBy = emptyStr then createdAtKey else f.sortBy) = createdAtKey ∨
          (if f.sortBy = emptyStr then createdAtKey else f.sortBy) = updatedAtKey
        rcases hkey with h | h | h
        · exact Or.inl (by rw [if_pos h])
        · by_cases he : f.sortBy = emptyStr
          · exact Or.inl (by rw [if_pos he])
          · exact Or.inl (by rw [if_neg he]; exact h)
        · by_cases he : f.sortBy = emptyStr
          · exact Or.inl (by rw [if_pos he])
          · exact Or.inr (by rw [if_neg he]; exact h)
      have h := repoGetTreeForest_maps_eq store₁ store₂ (normalizeFilter f)
        hperm hnd hterm hpg hps hkey' hdtc hdtu
      constructor
      · rw [huc store₁, huc store₂, hpid]
        exact h.1
      · intro x
        rw [huc store₁, huc store₂, hpid]
        exact h.2 x
    | some pid =>
      have h := repoGetTreeSub_maps_eq store₁ store₂ (normalizeFilter f) pid
        hperm hnd hterm hpg hps
      constructor
      · rw [huc store₁, huc store₂, hpid]
        exact h.1
      · intro x
        rw [huc store₁, huc store₂, hpid]
        exact h.2 x
  · have huc : ∀ store : List Comment, ucGetTree store f =
        repoSearch store (normalizeFilter f).search (normalizeFilter f) := by
      intro store
      show (if (normalizeFilter f).search ≠ emptyStr
        then repoSearch store (normalizeFilter f).search (normalizeFilter f)
        else repoGetTree store (normalizeFilter f).parentID (normalizeFilter f)) = _
      rw [if_pos hse]
    have h := repoSearch_maps_eq store₁ store₂ (normalizeFilter f)
      (normalizeFilter f).search hperm hnd hterm hpg hps hdtc hdtu
    constructor
    · rw [huc store₁, huc store₂]
      exact h.1
    · intro x
      rw [huc store₁, huc store₂]
      exact h.2 x

/-- Closed instance of `claim_c9_amended` on the two row orders of the example
sibling store: same root sequence and the same per-record multiplicities in
the returned trees. -/
theorem claim_c9_amended_witness :
    (ucGetTree [exRoot, exChild, sibC]
        ⟨none, emptyStr, 1, 50, createdAtKey, descKey⟩).map CommentTree.root =
      (ucGetTree [exRoot, sibC, exChild]
        ⟨none, emptyStr, 1, 50, createdAtKey, descKey⟩).map CommentTree.root ∧
    ∀ x : Comment,
      (ucGetTree [exRoot, exChild, sibC]
        ⟨none, emptyStr, 1, 50, createdAtKey, descKey⟩).map (countTree x) =
      (ucGetTree [exRoot, sibC, exChild]
        ⟨none, emptyStr, 1, 50, createdAtKey, descKey⟩).map (countTree x) :=
  claim_c9_amended [exRoot, exChild, sibC] [exRoot, sibC, exChild]
    ⟨none, emptyStr, 1, 50, createdAtKey, descKey⟩
    (by decide) (by decide) (by decide) (Or.inr (Or.inl rfl))
    (by decide) (by decide)
